import Mathlib

/-!
# `atter::matrix<T>` (matrix.hpp): a shallow embedding

The class owns a heap buffer through the raw pointer `_data`, so the embedding
keeps an explicit heap: a matrix object is the triple of its three data
members, and every member function is a function of the heap it runs in.

* `T` is instantiated with the exact integers (`Int`).
* `size_t` is 64 bits wide. The element count the sized constructor hands to
  `new[]` is the product of two arbitrary dimensions, taken modulo `2 ^ 64`
  (`size_modulus`); offsets into a live block and the element counts of the
  copy and literal constructors are taken over the natural numbers. `new[]`
  never runs out of memory.
* `new T[n]` yields a block of `n` elements with indeterminate contents, taken
  from the oracle `Heap.junk`.
* Indexing outside a block, through `nullptr` or through a pointer to a
  deleted block is undefined behaviour (`Outcome.ub`).
* The contents of a `std::ostringstream` are a list of characters; `operator<<`
  writes integers and `size_t` values in decimal.
* `operator==` and `operator!=` have no counterpart here. The body of
  `operator==` names `other.cols`, and the class has no member `cols`, so the
  member cannot be instantiated and has no behaviour to embed. Equality of two
  matrices is stated on their dimensions, elements and buffer contents.
-/

namespace atter

/-! ## Heap, pointers, outcomes -/

/-- The free store. Block `a` is `cells[a]`; `none` marks a block that was
released by `delete[]`. `junk a n` is the indeterminate value element `n` of
block `a` holds right after `new T[..]`. -/
structure Heap where
  cells : List (Option (List Int))
  junk : Nat → Nat → Int

/-- Result of running a piece of the program: normal completion with the final
heap and a value, a propagating `std::invalid_argument{"Error: Dimension
mismatch."}` with the heap at that point, or undefined behaviour. -/
inductive Outcome (α : Type) where
  | ok (h : Heap) (a : α)
  | throw (h : Heap)
  | ub

/-- Sequencing: an exception or undefined behaviour ends the computation. -/
def Outcome.bind {α β : Type} (x : Outcome α) (f : Heap → α → Outcome β) : Outcome β :=
  match x with
  | Outcome.ok h a => f h a
  | Outcome.throw h => Outcome.throw h
  | Outcome.ub => Outcome.ub

/-- The live block a `T*` points to (`none`: null or dangling pointer). -/
def Heap.block (h : Heap) (p : Option Nat) : Option (List Int) :=
  match p with
  | none => none
  | some a =>
    match h.cells[a]? with
    | some (some b) => some b
    | _ => none

/-- Replace the contents of block `a`. -/
def Heap.upd (h : Heap) (a : Nat) (b : List Int) : Heap :=
  { h with cells := h.cells.set a (some b) }

/-- The rvalue `p[n]`. -/
def Heap.load (h : Heap) (p : Option Nat) (n : Nat) : Outcome Int :=
  match h.block p with
  | some b =>
    match b[n]? with
    | some v => Outcome.ok h v
    | none => Outcome.ub
  | none => Outcome.ub

/-- The assignment `p[n] = v`. -/
def Heap.store (h : Heap) (p : Option Nat) (n : Nat) (v : Int) : Outcome Unit :=
  match p with
  | none => Outcome.ub
  | some a =>
    match h.block (some a) with
    | some b => if n < b.length then Outcome.ok (h.upd a (b.set n v)) () else Outcome.ub
    | none => Outcome.ub

/-- Append a live block with contents `b`; its address is `h.cells.length`. -/
def Heap.push (h : Heap) (b : List Int) : Heap :=
  { h with cells := h.cells ++ [some b] }

/-- The expression `new T[n]`: a fresh block of `n` indeterminate elements. -/
def Heap.new_array (h : Heap) (n : Nat) : Heap × Option Nat :=
  (h.push ((List.range n).map (h.junk h.cells.length)), some h.cells.length)

/-- The statement `delete[] p`. Deleting `nullptr` does nothing. -/
def Heap.delete_array (h : Heap) (p : Option Nat) : Outcome Unit :=
  match p with
  | none => Outcome.ok h ()
  | some a =>
    match h.block (some a) with
    | some _ => Outcome.ok { h with cells := h.cells.set a none } ()
    | none => Outcome.ub

/-- The number of values of `size_t` (64 bits): products of `size_t` values are
taken modulo this number. -/
def size_modulus : Nat := 2 ^ 64

/-- The loop `for(size_t i = i0; i < i0 + count; ++i) body`, threading the
local variables `s` the body updates. -/
def for_loop {σ : Type} (body : Nat → σ → Heap → Outcome σ) :
    (count : Nat) → (i : Nat) → σ → Heap → Outcome σ
  | 0, _, s, h => Outcome.ok h s
  | c + 1, i, s, h => (body i s h).bind fun h1 s1 => for_loop body c (i + 1) s1 h1

/-! ## The class -/

/-- Data members of `matrix<T>`: `size_t _rows, _cols; T* _data;`. -/
structure matrix where
  _rows : Nat
  _cols : Nat
  _data : Option Nat
  deriving DecidableEq, Repr

namespace matrix

/-- Constructor `matrix() : _rows{0}, _cols{0}, _data{nullptr} {}`. -/
def ctor : matrix := ⟨0, 0, none⟩

/-- Destructor `~matrix(){ delete[] _data; }`. -/
def dtor (h : Heap) (this : matrix) : Outcome Unit :=
  h.delete_array this._data

/-- Constructor `matrix(const size_t rows, const size_t cols)`:
`_data = new T[_rows * _cols]`, the product being a `size_t` product, which
wraps around. -/
def ctor_sized (h : Heap) (rows cols : Nat) : Outcome matrix :=
  Outcome.ok (h.new_array (rows * cols % size_modulus)).1
    ⟨rows, cols, (h.new_array (rows * cols % size_modulus)).2⟩

/-- The expression `_data[row * _cols + col]` of both `operator()` overloads,
read as an rvalue. -/
def operator_call (h : Heap) (this : matrix) (row col : Nat) : Outcome Int :=
  h.load this._data (row * this._cols + col)

/-- The assignment `m(row, col) = v` through `T& operator()(size_t, size_t)`. -/
def operator_call_assign (h : Heap) (this : matrix) (row col : Nat) (v : Int) : Outcome Unit :=
  h.store this._data (row * this._cols + col) v

/-- Inner loop of the literal constructor:
`for(auto col_value : row_list){ (*this)(row, col++) = col_value; }`. -/
def ctor_list_row (this : matrix) (row : Nat) : List Int → Nat → Heap → Outcome Unit
  | [], _, h => Outcome.ok h ()
  | col_value :: rest, col, h =>
    (this.operator_call_assign h row col col_value).bind fun h1 _ =>
      ctor_list_row this row rest (col + 1) h1

/-- Outer loop of the literal constructor: `for(auto row_list : list){ ...; ++row; }`. -/
def ctor_list_rows (this : matrix) : List (List Int) → Nat → Heap → Outcome Unit
  | [], _, h => Outcome.ok h ()
  | row_list :: rest, row, h =>
    (ctor_list_row this row row_list 0 h).bind fun h1 _ =>
      ctor_list_rows this rest (row + 1) h1

/-- Constructor `matrix(const std::initializer_list<std::initializer_list<T>>& list)`.
`list.begin()->size()` dereferences the end pointer of an empty list. -/
def ctor_list (h : Heap) (list : List (List Int)) : Outcome matrix :=
  match list with
  | [] => Outcome.ub
  | first :: _ =>
    let this : matrix :=
      ⟨list.length, first.length, (h.new_array (list.length * first.length)).2⟩
    (ctor_list_rows this list 0 (h.new_array (list.length * first.length)).1).bind
      fun h1 _ => Outcome.ok h1 this

/-- Constructor `matrix(const matrix& other)`. -/
def ctor_copy (h : Heap) (other : matrix) : Outcome matrix :=
  let this : matrix :=
    ⟨other._rows, other._cols, (h.new_array (other._rows * other._cols)).2⟩
  (for_loop (fun n _ h1 => (h1.load other._data n).bind fun h2 v => h2.store this._data n v)
      (this._rows * this._cols) 0 () (h.new_array (other._rows * other._cols)).1).bind
    fun h1 _ => Outcome.ok h1 this

/-- Friend `swap(matrix& lhs, matrix& rhs)`: the new `lhs` and the new `rhs`. -/
def swap (lhs rhs : matrix) : matrix × matrix :=
  (⟨rhs._rows, rhs._cols, rhs._data⟩, ⟨lhs._rows, lhs._cols, lhs._data⟩)

/-- Constructor `matrix(matrix&& other) noexcept : matrix{} { swap(*this, other); }`:
the constructed object and the state `other` is left in. -/
def ctor_move (other : matrix) : matrix × matrix :=
  swap ctor other

/-- Member `matrix& operator=(matrix other)`, given the already initialised
by-value parameter: swap, then the parameter is destroyed. Returns `*this`. -/
def operator_assign (h : Heap) (this other : matrix) : Outcome matrix :=
  (dtor h (swap this other).2).bind fun h1 _ => Outcome.ok h1 (swap this other).1

/-- Copy assignment `b = a`: the parameter of `operator=` is copy-constructed from `a`. -/
def copy_assign (h : Heap) (this a : matrix) : Outcome matrix :=
  (ctor_copy h a).bind fun h1 other => operator_assign h1 this other

/-- Move assignment `b = std::move(a)`: the parameter of `operator=` is
move-constructed from `a`. Returns `*this` and the state `a` is left in. -/
def move_assign (h : Heap) (this a : matrix) : Outcome (matrix × matrix) :=
  (operator_assign h this (ctor_move a).1).bind fun h1 t => Outcome.ok h1 (t, (ctor_move a).2)

/-- Member `matrix& operator=(const T&& rhs)`. -/
def operator_assign_fill (h : Heap) (this : matrix) (rhs : Int) : Outcome matrix :=
  (for_loop (fun n _ h1 => h1.store this._data n rhs) (this._rows * this._cols) 0 () h).bind
    fun h1 _ => Outcome.ok h1 this

/-- Member `matrix& operator+=(const matrix& rhs)`. -/
def operator_add_assign (h : Heap) (this rhs : matrix) : Outcome matrix :=
  if this._rows ≠ rhs._rows ∨ this._cols ≠ rhs._cols then Outcome.throw h
  else
    (for_loop (fun n _ h1 =>
        (h1.load this._data n).bind fun h2 x =>
          (h2.load rhs._data n).bind fun h3 y => h3.store this._data n (x + y))
      (this._rows * this._cols) 0 () h).bind fun h1 _ => Outcome.ok h1 this

/-- Member `matrix operator+(const matrix& rhs)`. When `sum += rhs` throws,
the local `sum` is destroyed while the exception propagates. -/
def operator_add (h : Heap) (this rhs : matrix) : Outcome matrix :=
  (ctor_copy h this).bind fun h1 sum =>
    match operator_add_assign h1 sum rhs with
    | Outcome.ok h2 s => Outcome.ok h2 s
    | Outcome.throw h2 => (dtor h2 sum).bind fun h3 _ => Outcome.throw h3
    | Outcome.ub => Outcome.ub

/-- Member `matrix operator*(const matrix& rhs)`. -/
def operator_mul (h : Heap) (this rhs : matrix) : Outcome matrix :=
  if this._cols ≠ rhs._rows then Outcome.throw h
  else
    (ctor_sized h this._rows rhs._cols).bind fun h1 product =>
      (for_loop (fun lhs_row _ h2 =>
          for_loop (fun rhs_col _ h3 =>
              (for_loop (fun k current_element h4 =>
                  (this.operator_call h4 lhs_row k).bind fun h5 x =>
                    (rhs.operator_call h5 k rhs_col).bind fun h6 y =>
                      Outcome.ok h6 (current_element + x * y))
                this._cols 0 0 h3).bind fun h4 current_element =>
                product.operator_call_assign h4 lhs_row rhs_col current_element)
            rhs._cols 0 () h2)
        this._rows 0 () h1).bind fun h2 _ => Outcome.ok h2 product

/-- Member `matrix& operator*=(const matrix& rhs)`: `(*this) = (*this) * rhs;`. -/
def operator_mul_assign (h : Heap) (this rhs : matrix) : Outcome matrix :=
  (operator_mul h this rhs).bind fun h1 product => operator_assign h1 this product

/-- The characters `operator<<` writes for a `size_t`: its decimal digits. -/
def size_text (n : Nat) : List Char := Nat.toDigits 10 n

/-- The characters `operator<<` writes for an integer element: its decimal
digits, after a minus sign when it is negative. -/
def int_text : Int → List Char
  | Int.ofNat n => Nat.toDigits 10 n
  | Int.negSucc n => '-' :: Nat.toDigits 10 (n + 1)

/-- Member `std::string to_string() const`. The local `oss` is the list of
characters written to the stream so far; `oss.str()` is that list. -/
def to_string (h : Heap) (this : matrix) : Outcome (List Char) :=
  (for_loop (fun row oss h1 =>
      (for_loop (fun col oss1 h2 =>
          (this.operator_call h2 row col).bind fun h3 x =>
            Outcome.ok h3 (oss1 ++ int_text x ++ [' ']))
        this._cols 0 oss h1).bind fun h2 oss1 => Outcome.ok h2 (oss1 ++ ['\n']))
    this._rows 0 [] h).bind fun h1 oss =>
      Outcome.ok h1
        (oss ++ "Rows: ".toList ++ size_text this._rows ++ ", cols: ".toList
          ++ size_text this._cols ++ ['\n'])

/-! ## Observations used in the statements -/

/-- The element buffer of a matrix: the block behind `_data`; a null `_data`
is the empty storage. `none` when `_data` dangles. -/
def storage (h : Heap) (m : matrix) : Option (List Int) :=
  match m._data with
  | none => some []
  | some a => h.block (some a)

/-- The data-model invariant `storage.length == rows*cols` (with live storage). -/
def valid (h : Heap) (m : matrix) : Prop :=
  (storage h m).map List.length = some (m._rows * m._cols)

instance (h : Heap) (m : matrix) : Decidable (valid h m) := by
  unfold valid; infer_instance

/-- The stored value at row-major position `(i, j)` (`0` outside the storage). -/
def entry (h : Heap) (m : matrix) (i j : Nat) : Int :=
  (((storage h m).getD [])[i * m._cols + j]?).getD 0

/-- The rows of a matrix as lists of elements, read off its storage. -/
def rows_of (h : Heap) (m : matrix) : List (List Int) :=
  (List.range m._rows).map fun r => (List.range m._cols).map fun c => entry h m r c

/-- The last line of the rendering: `Rows: R, cols: C` and a newline. -/
def dims_line (R C : Nat) : List Char :=
  "Rows: ".toList ++ size_text R ++ ", cols: ".toList ++ size_text C ++ ['\n']

/-- A row line in the wording of the specification: the element texts
separated by single spaces, terminated by a newline. -/
def spec_row_line (row : List Int) : List Char :=
  List.intercalate [' '] (row.map int_text) ++ ['\n']

/-- The rendering in the wording of the specification: one `spec_row_line` per
row, in row order, then the line with the row and column counts. -/
def spec_to_string (rows : List (List Int)) (R C : Nat) : List Char :=
  (rows.map spec_row_line).flatten ++ dims_line R C

/-- A row line as the member function writes it: every element text is
followed by one space, then the newline. -/
def row_line (row : List Int) : List Char :=
  (row.map fun x => int_text x ++ [' ']).flatten ++ ['\n']

end matrix

/-! ## Example data -/

/-- A heap holding the buffers of `[[1,2],[3,4]]`, `[[5,6],[7,8]]`,
`[[1,2,3],[4,5,6]]` and `[[6,5,4],[3,2,1]]`. -/
def heap0 : Heap :=
  ⟨[some [1, 2, 3, 4], some [5, 6, 7, 8], some [1, 2, 3, 4, 5, 6], some [6, 5, 4, 3, 2, 1]],
    fun _ _ => 0⟩

/-- The 2x2 matrix `[[1,2],[3,4]]` in `heap0`. -/
def mat_a : matrix := ⟨2, 2, some 0⟩

/-- The 2x2 matrix `[[5,6],[7,8]]` in `heap0`. -/
def mat_b : matrix := ⟨2, 2, some 1⟩

/-- The 2x3 matrix `[[1,2,3],[4,5,6]]` in `heap0`. -/
def mat_c : matrix := ⟨2, 3, some 2⟩

/-- The 2x3 matrix `[[6,5,4],[3,2,1]]` in `heap0`. -/
def mat_d : matrix := ⟨2, 3, some 3⟩

/-- A heap holding four empty buffers, as left by `new T[0]`. -/
def heap_wrap : Heap := ⟨[some [], some [], some [], some []], fun _ _ => 0⟩

/-- The matrix `matrix<int>(4294967296, 0)` in `heap_wrap`: `2 ^ 32` rows, no
columns, no elements. -/
def mat_tall : matrix := ⟨2 ^ 32, 0, some 0⟩

/-- The matrix `matrix<int>(0, 4294967296)` in `heap_wrap`: no rows, `2 ^ 32`
columns, no elements. -/
def mat_wide : matrix := ⟨0, 2 ^ 32, some 1⟩

theorem Outcome.bind_ok {α β : Type} (h : Heap) (a : α) (f : Heap → α → Outcome β) :
    (Outcome.ok h a).bind f = f h a := rfl

theorem Outcome.bind_throw {α β : Type} (h : Heap) (f : Heap → α → Outcome β) :
    (Outcome.throw h : Outcome α).bind f = Outcome.throw h := rfl

theorem Outcome.bind_ub {α β : Type} (f : Heap → α → Outcome β) :
    (Outcome.ub : Outcome α).bind f = Outcome.ub := rfl

theorem Heap.block_some_lt {h : Heap} {a : Nat} {b : List Int}
    (hb : h.block (some a) = some b) : a < h.cells.length := by
  by_contra hlt
  have : h.cells[a]? = none := List.getElem?_eq_none (by omega)
  simp [Heap.block, this] at hb

theorem Heap.block_some_cells {h : Heap} {a : Nat} {b : List Int}
    (hb : h.block (some a) = some b) : h.cells[a]? = some (some b) := by
  simp only [Heap.block] at hb
  split at hb
  · next x heq =>
    simp only [Option.some.injEq] at hb
    rw [heq, hb]
  · cases hb

theorem Heap.block_of_cells {h : Heap} {a : Nat} {b : List Int}
    (hc : h.cells[a]? = some (some b)) : h.block (some a) = some b := by
  simp [Heap.block, hc]

theorem Heap.upd_self {h : Heap} {a : Nat} {b : List Int}
    (hb : h.block (some a) = some b) : h.upd a b = h := by
  have hc := Heap.block_some_cells hb
  have hlt := Heap.block_some_lt hb
  cases h with
  | mk cells junk =>
    simp only [Heap.upd, Heap.mk.injEq, and_true]
    apply List.ext_getElem?
    intro i
    by_cases hi : i = a
    · subst hi
      simp at hc hlt
      simp [List.getElem?_set, hlt, hc]
    · simp [List.getElem?_set, Ne.symm hi]

theorem Heap.upd_upd (h : Heap) (a : Nat) (b c : List Int) :
    (h.upd a b).upd a c = h.upd a c := by
  simp [Heap.upd, List.set_set]

theorem Heap.block_upd_same {h : Heap} {a : Nat} (b : List Int)
    (hlt : a < h.cells.length) : (h.upd a b).block (some a) = some b := by
  simp [Heap.block, Heap.upd, List.getElem?_set, hlt]

theorem Heap.block_upd_ne {h : Heap} {a : Nat} (b : List Int) {p : Option Nat}
    (hne : p ≠ some a) : (h.upd a b).block p = h.block p := by
  cases p with
  | none => rfl
  | some q =>
    have : a ≠ q := fun e => hne (by rw [e])
    simp [Heap.block, Heap.upd, List.getElem?_set, this]

theorem Heap.push_upd (h : Heap) (b c : List Int) :
    (h.push b).upd h.cells.length c = h.push c := by
  simp [Heap.push, Heap.upd]

theorem Heap.block_push_new (h : Heap) (b : List Int) :
    (h.push b).block (some h.cells.length) = some b := by
  simp [Heap.block, Heap.push]

theorem Heap.block_push_old {h : Heap} {p : Option Nat} {x : List Int} (b : List Int)
    (hx : h.block p = some x) : (h.push b).block p = some x := by
  cases p with
  | none => simp [Heap.block] at hx
  | some a =>
    have hlt := Heap.block_some_lt hx
    have hc := Heap.block_some_cells hx
    apply Heap.block_of_cells
    simp [Heap.push, List.getElem?_append_left hlt, hc]

theorem Heap.block_push_lt {h : Heap} {a : Nat} (b : List Int)
    (hlt : a < h.cells.length) : (h.push b).block (some a) = h.block (some a) := by
  simp [Heap.block, Heap.push, List.getElem?_append_left hlt]

theorem Heap.load_ok {h : Heap} {p : Option Nat} {b : List Int} {n : Nat}
    (hb : h.block p = some b) (hn : n < b.length) :
    h.load p n = Outcome.ok h (b[n]?.getD 0) := by
  simp [Heap.load, hb, List.getElem?_eq_getElem hn]

theorem Heap.store_ok {h : Heap} {a : Nat} {b : List Int} {n : Nat} (v : Int)
    (hb : h.block (some a) = some b) (hn : n < b.length) :
    h.store (some a) n v = Outcome.ok (h.upd a (b.set n v)) () := by
  simp [Heap.store, hb, hn]

theorem Heap.store_push {h : Heap} {b : List Int} {n : Nat} (v : Int) (hn : n < b.length) :
    (h.push b).store (some h.cells.length) n v = Outcome.ok (h.push (b.set n v)) () := by
  rw [Heap.store_ok v (Heap.block_push_new h b) hn]
  have := Heap.push_upd h b (b.set n v)
  simp only [Heap.push, List.length_append] at this ⊢
  simpa using this

/-! ## Loops -/

theorem for_loop_inv {σ : Type} (body : Nat → σ → Heap → Outcome σ)
    (Inv : Nat → σ → Heap → Prop) (n : Nat)
    (step : ∀ i s h, i < n → Inv i s h →
      ∃ h1 s1, body i s h = Outcome.ok h1 s1 ∧ Inv (i + 1) s1 h1) :
    ∀ c i s h, i + c = n → Inv i s h →
      ∃ h1 s1, for_loop body c i s h = Outcome.ok h1 s1 ∧ Inv n s1 h1 := by
  intro c
  induction c with
  | zero =>
    intro i s h hi hinv
    have : i = n := by omega
    subst this
    exact ⟨h, s, rfl, hinv⟩
  | succ c ih =>
    intro i s h hi hinv
    obtain ⟨h1, s1, hb, hinv1⟩ := step i s h (by omega) hinv
    obtain ⟨h2, s2, hl, hinv2⟩ := ih (i + 1) s1 h1 (by omega) hinv1
    exact ⟨h2, s2, by rw [for_loop, hb, Outcome.bind_ok, hl], hinv2⟩

/-! ## Storage and validity -/

namespace matrix

theorem valid_iff (h : Heap) (m : matrix) :
    valid h m ↔ ∃ b, storage h m = some b ∧ b.length = m._rows * m._cols := by
  unfold valid
  cases storage h m with
  | none => simp
  | some b => simp

theorem storage_load {h : Heap} {m : matrix} {b : List Int} {n : Nat}
    (hs : storage h m = some b) (hn : n < b.length) :
    h.load m._data n = Outcome.ok h (b[n]?.getD 0) := by
  unfold storage at hs
  split at hs
  · simp only [Option.some.injEq] at hs
    subst hs
    simp at hn
  · next a ha =>
    rw [ha]
    exact Heap.load_ok hs hn

theorem storage_push {h : Heap} {m : matrix} {b : List Int} (c : List Int)
    (hs : storage h m = some b) : storage (h.push c) m = some b := by
  unfold storage at hs ⊢
  split
  · next hd => simpa [hd] using hs
  · next a ha =>
    rw [ha] at hs
    exact Heap.block_push_old c hs

theorem entry_eq {h : Heap} {m : matrix} {b : List Int} (hs : storage h m = some b)
    (i j : Nat) : entry h m i j = (b[i * m._cols + j]?).getD 0 := by
  simp [entry, hs]

theorem index_lt {M N i j : Nat} (hi : i < M) (hj : j < N) : i * N + j < M * N := by
  calc i * N + j < i * N + N := by omega
    _ = (i + 1) * N := by ring
    _ ≤ M * N := Nat.mul_le_mul_right N hi

theorem operator_call_eq {h : Heap} {m : matrix} (hv : valid h m) {i j : Nat}
    (hi : i < m._rows) (hj : j < m._cols) :
    m.operator_call h i j = Outcome.ok h (entry h m i j) := by
  obtain ⟨b, hs, hl⟩ := (valid_iff h m).1 hv
  rw [entry_eq hs]
  exact storage_load hs (by rw [hl]; exact index_lt hi hj)

/-! ## Copy constructor -/

theorem ctor_copy_eq {h : Heap} {other : matrix} {buf : List Int}
    (hs : storage h other = some buf) (hl : buf.length = other._rows * other._cols) :
    ctor_copy h other
      = Outcome.ok (h.push buf) ⟨other._rows, other._cols, some h.cells.length⟩ := by
  have key := for_loop_inv
    (fun n (_ : Unit) h1 => (h1.load other._data n).bind fun h2 v =>
      h2.store (some h.cells.length) n v)
    (fun n _ h1 => ∃ b : List Int, h1 = h.push b ∧ b.length = buf.length ∧
      ∀ k, k < n → b[k]? = buf[k]?)
    buf.length
    (by
      rintro i ⟨⟩ h1 hi ⟨b, rfl, hbl, hpre⟩
      refine ⟨h.push (b.set i (buf[i]?.getD 0)), (), ?_, _, rfl, by simpa using hbl, ?_⟩
      · show ((h.push b).load other._data i).bind _ = _
        rw [storage_load (storage_push b hs) hi, Outcome.bind_ok]
        exact Heap.store_push _ (by omega)
      · intro k hk
        by_cases hki : k = i
        · subst hki
          simp [List.getElem?_set, hbl, hi, List.getElem?_eq_getElem hi]
        · rw [List.getElem?_set_ne (Ne.symm hki)]
          exact hpre k (by omega))
    buf.length 0 () (h.push ((List.range buf.length).map (h.junk h.cells.length)))
    (by simp) ⟨_, rfl, by simp, by intro k hk; omega⟩
  obtain ⟨h1, _, hrun, b, rfl, hbl, hall⟩ := key
  have hb : b = buf := by
    apply List.ext_getElem? 
    intro k
    by_cases hk : k < buf.length
    · exact hall k hk
    · rw [List.getElem?_eq_none (by omega), List.getElem?_eq_none (by omega)]
  subst hb
  unfold ctor_copy
  simp only [Heap.new_array, ← hl]
  rw [hrun, Outcome.bind_ok]

/-! ## Multiplication -/

theorem valid_push {h : Heap} {m : matrix} (c : List Int) (hv : valid h m) :
    valid (h.push c) m := by
  obtain ⟨b, hs, hl⟩ := (valid_iff h m).1 hv
  exact (valid_iff _ m).2 ⟨b, storage_push c hs, hl⟩

theorem entry_push {h : Heap} {m : matrix} (c : List Int) (hv : valid h m) (i j : Nat) :
    entry (h.push c) m i j = entry h m i j := by
  obtain ⟨b, hs, _⟩ := (valid_iff h m).1 hv
  rw [entry_eq hs, entry_eq (storage_push c hs)]

/-- The innermost loop of `operator*` leaves the heap alone and accumulates the
dot product of row `i` of `this` and column `j` of `rhs`. -/
theorem mul_k_loop {h : Heap} {this rhs : matrix} (hA : valid h this) (hB : valid h rhs)
    (hK : this._cols = rhs._rows) {i j : Nat} (hi : i < this._rows) (hj : j < rhs._cols) :
    for_loop (fun k current_element h4 =>
        (this.operator_call h4 i k).bind fun h5 x =>
          (rhs.operator_call h5 k j).bind fun h6 y =>
            Outcome.ok h6 (current_element + x * y)) this._cols 0 0 h
      = Outcome.ok h (∑ k ∈ Finset.range this._cols, entry h this i k * entry h rhs k j) := by
  obtain ⟨h1, s1, hrun, hh, hs⟩ := for_loop_inv
    (fun k current_element h4 =>
        (this.operator_call h4 i k).bind fun h5 x =>
          (rhs.operator_call h5 k j).bind fun h6 y =>
            Outcome.ok h6 (current_element + x * y))
    (fun k cur h1 => h1 = h ∧
      cur = ∑ l ∈ Finset.range k, entry h this i l * entry h rhs l j)
    this._cols
    (by
      rintro k cur h1 hk ⟨hh, hcur⟩
      subst hh
      refine ⟨h1, cur + entry h1 this i k * entry h1 rhs k j, ?_, rfl, ?_⟩
      · show ((this.operator_call h1 i k).bind _) = _
        rw [operator_call_eq hA hi hk, Outcome.bind_ok,
          operator_call_eq hB (by omega) hj, Outcome.bind_ok]
      · rw [Finset.sum_range_succ, hcur])
    this._cols 0 0 h (by simp) ⟨rfl, by simp⟩
  rw [hrun, hh, hs]

theorem div_mod_index {N i j : Nat} (hj : j < N) :
    (i * N + j) / N = i ∧ (i * N + j) % N = j := by
  have hN : 0 < N := by omega
  constructor
  · rw [Nat.mul_comm, Nat.mul_add_div hN, Nat.div_eq_of_lt hj, Nat.add_zero]
  · rw [Nat.mul_comm, Nat.mul_add_mod, Nat.mod_eq_of_lt hj]

/-- Running `operator*` on valid operands with matching inner dimension whose
product has fewer than `2 ^ 64` elements: the
result lives in one fresh block, whose element at offset `i * N + j` is the
dot product of row `i` and column `j`; nothing else on the heap changes. -/
theorem operator_mul_eq {h : Heap} {this rhs : matrix} (hA : valid h this) (hB : valid h rhs)
    (hK : this._cols = rhs._rows) (hfit : this._rows * rhs._cols < size_modulus) :
    ∃ P : List Int,
      operator_mul h this rhs
        = Outcome.ok (h.push P) ⟨this._rows, rhs._cols, some h.cells.length⟩ ∧
      P.length = this._rows * rhs._cols ∧
      ∀ i j, i < this._rows → j < rhs._cols →
        P[i * rhs._cols + j]?
          = some (∑ k ∈ Finset.range this._cols, entry h this i k * entry h rhs k j) := by
  let f : Nat → Int := fun o =>
    ∑ k ∈ Finset.range this._cols, entry h this (o / rhs._cols) k * entry h rhs k (o % rhs._cols)
  let product : matrix := ⟨this._rows, rhs._cols, some h.cells.length⟩
  have inner : ∀ i, i < this._rows → ∀ P : List Int, P.length = this._rows * rhs._cols →
      (∀ o, o < i * rhs._cols → P[o]? = some (f o)) →
      ∃ P1 : List Int,
        for_loop (fun rhs_col (_ : Unit) h3 =>
            (for_loop (fun k current_element h4 =>
                (this.operator_call h4 i k).bind fun h5 x =>
                  (rhs.operator_call h5 k rhs_col).bind fun h6 y =>
                    Outcome.ok h6 (current_element + x * y))
              this._cols 0 0 h3).bind fun h4 current_element =>
              product.operator_call_assign h4 i rhs_col current_element)
          rhs._cols 0 () (h.push P) = Outcome.ok (h.push P1) () ∧
        P1.length = this._rows * rhs._cols ∧
        ∀ o, o < (i + 1) * rhs._cols → P1[o]? = some (f o) := by
    intro i hi P hPl hP
    obtain ⟨h1, _, hrun, P1, rfl, hP1l, hP1⟩ := for_loop_inv
      (fun rhs_col (_ : Unit) h3 =>
            (for_loop (fun k current_element h4 =>
                (this.operator_call h4 i k).bind fun h5 x =>
                  (rhs.operator_call h5 k rhs_col).bind fun h6 y =>
                    Outcome.ok h6 (current_element + x * y))
              this._cols 0 0 h3).bind fun h4 current_element =>
              product.operator_call_assign h4 i rhs_col current_element)
      (fun j _ h1 => ∃ P1 : List Int, h1 = h.push P1 ∧
        P1.length = this._rows * rhs._cols ∧
        ∀ o, o < i * rhs._cols + j → P1[o]? = some (f o))
      rhs._cols
      (by
        rintro j ⟨⟩ h1 hj ⟨P1, rfl, hP1l, hP1⟩
        have hoff : i * rhs._cols + j < P1.length := by
          rw [hP1l]; exact index_lt hi hj
        refine ⟨h.push (P1.set (i * rhs._cols + j) (f (i * rhs._cols + j))), (), ?_,
          _, rfl, by simpa using hP1l, ?_⟩
        · show ((for_loop _ this._cols 0 0 (h.push P1)).bind _) = _
          rw [mul_k_loop (valid_push P1 hA) (valid_push P1 hB) hK hi hj, Outcome.bind_ok]
          have hf : (∑ k ∈ Finset.range this._cols,
              entry (h.push P1) this i k * entry (h.push P1) rhs k j)
              = f (i * rhs._cols + j) := by
            simp only [f, (div_mod_index hj).1, (div_mod_index hj).2]
            apply Finset.sum_congr rfl
            intro k _
            rw [entry_push P1 hA, entry_push P1 hB]
          rw [hf]
          exact Heap.store_push _ hoff
        · intro o ho
          by_cases hoe : o = i * rhs._cols + j
          · subst hoe
            simp [List.getElem?_set, hoff]
          · rw [List.getElem?_set_ne (Ne.symm hoe)]
            exact hP1 o (by omega))
      rhs._cols 0 () (h.push P) (by simp) ⟨P, rfl, hPl, by simpa using hP⟩
    refine ⟨P1, hrun, hP1l, ?_⟩
    intro o ho
    exact hP1 o (by rw [Nat.add_mul, Nat.one_mul] at ho; exact ho)
  obtain ⟨h1, _, hrun, P, rfl, hPl, hP⟩ := for_loop_inv
    (fun lhs_row (_ : Unit) h2 =>
      for_loop (fun rhs_col (_ : Unit) h3 =>
          (for_loop (fun k current_element h4 =>
              (this.operator_call h4 lhs_row k).bind fun h5 x =>
                (rhs.operator_call h5 k rhs_col).bind fun h6 y =>
                  Outcome.ok h6 (current_element + x * y))
            this._cols 0 0 h3).bind fun h4 current_element =>
            product.operator_call_assign h4 lhs_row rhs_col current_element)
        rhs._cols 0 () h2)
    (fun i _ h1 => ∃ P : List Int, h1 = h.push P ∧
      P.length = this._rows * rhs._cols ∧
      ∀ o, o < i * rhs._cols → P[o]? = some (f o))
    this._rows
    (by
      rintro i ⟨⟩ h1 hi ⟨P, rfl, hPl, hP⟩
      obtain ⟨P1, hrun, hP1l, hP1⟩ := inner i hi P hPl hP
      exact ⟨h.push P1, (), hrun, P1, rfl, hP1l, hP1⟩)
    this._rows 0 () (h.push ((List.range (this._rows * rhs._cols)).map (h.junk h.cells.length)))
    (by simp) ⟨_, rfl, by simp, by intro o ho; simp at ho⟩
  refine ⟨P, ?_, hPl, ?_⟩
  · unfold operator_mul
    rw [if_neg (by simpa using hK)]
    simp only [ctor_sized, Heap.new_array, Outcome.bind_ok, Nat.mod_eq_of_lt hfit]
    rw [hrun, Outcome.bind_ok]
  · intro i j hi hj
    rw [hP _ (index_lt hi hj)]
    simp only [f, (div_mod_index hj).1, (div_mod_index hj).2]

theorem storage_new (h : Heap) (P : List Int) (r c : Nat) :
    storage (h.push P) ⟨r, c, some h.cells.length⟩ = some P :=
  Heap.block_push_new h P

/-- Packaged form of `operator_mul_eq`: the product is a valid matrix on the
extended heap and its entries are the dot products. -/
theorem operator_mul_spec {h : Heap} {A B : matrix} (hA : valid h A) (hB : valid h B)
    (hK : A._cols = B._rows) (hfit : A._rows * B._cols < size_modulus) :
    ∃ P : List Int,
      operator_mul h A B = Outcome.ok (h.push P) ⟨A._rows, B._cols, some h.cells.length⟩ ∧
      valid (h.push P) ⟨A._rows, B._cols, some h.cells.length⟩ ∧
      ∀ i j, i < A._rows → j < B._cols →
        entry (h.push P) ⟨A._rows, B._cols, some h.cells.length⟩ i j
          = ∑ k ∈ Finset.range A._cols, entry h A i k * entry h B k j := by
  obtain ⟨P, hrun, hPl, hP⟩ := operator_mul_eq hA hB hK hfit
  refine ⟨P, hrun, ?_, ?_⟩
  · exact (valid_iff _ _).2 ⟨P, storage_new h P _ _, hPl⟩
  · intro i j hi hj
    rw [entry_eq (storage_new h P _ _)]
    show (P[i * B._cols + j]?).getD 0 = _
    rw [hP i j hi hj]
    rfl

theorem storage_upd_ne {h : Heap} {m : matrix} {a : Nat} (b : List Int)
    (hne : m._data ≠ some a) : storage (h.upd a b) m = storage h m := by
  unfold storage
  split
  · rfl
  · next q hq =>
    exact Heap.block_upd_ne b (by rw [← hq]; exact hne)

/-- The loop of `operator+=` on a matrix whose buffer is block `a`: the block
ends up holding the element-wise sums, everything else is untouched. The right
operand may be the same object. -/
theorem add_assign_loop {h : Heap} {this rhs : matrix} {a : Nat} {bufA bufB : List Int}
    (hd : this._data = some a) (hbA : h.block (some a) = some bufA)
    (hsB : storage h rhs = some bufB) (hl : bufB.length = bufA.length) :
    ∃ b : List Int,
      for_loop (fun n (_ : Unit) h1 =>
          (h1.load this._data n).bind fun h2 x =>
            (h2.load rhs._data n).bind fun h3 y => h3.store this._data n (x + y))
        bufA.length 0 () h = Outcome.ok (h.upd a b) () ∧
      b.length = bufA.length ∧
      ∀ n, n < bufA.length → b[n]? = some (bufA[n]?.getD 0 + bufB[n]?.getD 0) := by
  have hlt := Heap.block_some_lt hbA
  obtain ⟨h1, _, hrun, b, rfl, hbl, hlo, _⟩ := for_loop_inv
    (fun n (_ : Unit) h1 =>
          (h1.load this._data n).bind fun h2 x =>
            (h2.load rhs._data n).bind fun h3 y => h3.store this._data n (x + y))
    (fun n _ h1 => ∃ b : List Int, h1 = h.upd a b ∧ b.length = bufA.length ∧
      (∀ k, k < n → b[k]? = some (bufA[k]?.getD 0 + bufB[k]?.getD 0)) ∧
      (∀ k, n ≤ k → b[k]? = bufA[k]?))
    bufA.length
    (by
      rintro n ⟨⟩ h1 hn ⟨b, rfl, hbl, hlo, hhi⟩
      have hblk : (h.upd a b).block (some a) = some b := Heap.block_upd_same b hlt
      have hx : (h.upd a b).load this._data n = Outcome.ok (h.upd a b) (bufA[n]?.getD 0) := by
        rw [hd, Heap.load_ok hblk (by omega), hhi n (Nat.le_refl n)]
      have hy : (h.upd a b).load rhs._data n = Outcome.ok (h.upd a b) (bufB[n]?.getD 0) := by
        by_cases hr : rhs._data = some a
        · have hAB : bufB = bufA := by
            have : storage h rhs = some bufA := by
              unfold storage; rw [hr]; exact hbA
            rw [hsB] at this
            exact Option.some.inj this
          rw [hr, Heap.load_ok hblk (by omega), hhi n (Nat.le_refl n), hAB]
        · have hs1 : storage (h.upd a b) rhs = some bufB := by
            rw [storage_upd_ne b hr]; exact hsB
          exact storage_load hs1 (by omega)
      refine ⟨h.upd a (b.set n (bufA[n]?.getD 0 + bufB[n]?.getD 0)), (), ?_,
        _, rfl, by simpa using hbl, ?_, ?_⟩
      · show (((h.upd a b).load this._data n).bind _) = _
        rw [hx, Outcome.bind_ok, hy, Outcome.bind_ok, hd,
          Heap.store_ok _ hblk (by omega), Heap.upd_upd]
      · intro k hk
        by_cases hkn : k = n
        · subst hkn
          simp [List.getElem?_set, hbl, hn]
        · rw [List.getElem?_set_ne (Ne.symm hkn)]
          exact hlo k (by omega)
      · intro k hk
        rw [List.getElem?_set_ne (by omega)]
        exact hhi k (by omega))
    bufA.length 0 () h (by simp)
    ⟨bufA, (Heap.upd_self hbA).symm, rfl, by intro k hk; omega, by intro k _; rfl⟩
  exact ⟨b, hrun, hbl, hlo⟩

/-- Running `operator+` on valid operands of equal shape: the sum lives in one
fresh block holding the element-wise sums; nothing else on the heap changes. -/
theorem operator_add_eq {h : Heap} {A B : matrix} (hA : valid h A) (hB : valid h B)
    (hr : A._rows = B._rows) (hc : A._cols = B._cols) :
    ∃ S : List Int,
      operator_add h A B = Outcome.ok (h.push S) ⟨A._rows, A._cols, some h.cells.length⟩ ∧
      S.length = A._rows * A._cols ∧
      ∀ i j, i < A._rows → j < A._cols →
        S[i * A._cols + j]? = some (entry h A i j + entry h B i j) := by
  obtain ⟨bufA, hsA, hlA⟩ := (valid_iff h A).1 hA
  obtain ⟨bufB, hsB, hlB⟩ := (valid_iff h B).1 hB
  have hlen : bufB.length = bufA.length := by rw [hlA, hlB, hr, hc]
  obtain ⟨S, hrun, hSl, hS⟩ :=
    @add_assign_loop (h.push bufA) ⟨A._rows, A._cols, some h.cells.length⟩ B
      h.cells.length bufA bufB rfl (Heap.block_push_new h bufA) (storage_push bufA hsB) hlen
  refine ⟨S, ?_, by rw [hSl, hlA], ?_⟩
  · unfold operator_add
    rw [ctor_copy_eq hsA hlA, Outcome.bind_ok]
    unfold operator_add_assign
    rw [if_neg (by simp [hr, hc])]
    simp only [← hlA]
    rw [hrun, Outcome.bind_ok]
    have := Heap.push_upd h bufA S
    simp only [Heap.push, List.length_append] at this ⊢
    simp only [this]
  · intro i j hi hj
    have hn : i * A._cols + j < bufA.length := by rw [hlA]; exact index_lt hi hj
    rw [hS _ hn, entry_eq hsA, entry_eq hsB, ← hc]

end matrix

/-! ## Exceptions -/

theorem Heap.load_ne_throw (h : Heap) (p : Option Nat) (n : Nat) (h1 : Heap) :
    h.load p n ≠ Outcome.throw h1 := by
  unfold Heap.load
  split
  · split <;> simp
  · simp

theorem Heap.store_ne_throw (h : Heap) (p : Option Nat) (n : Nat) (v : Int) (h1 : Heap) :
    h.store p n v ≠ Outcome.throw h1 := by
  unfold Heap.store
  split
  · simp
  · split
    · split <;> simp
    · simp

theorem Heap.delete_array_ne_throw (h : Heap) (p : Option Nat) (h1 : Heap) :
    h.delete_array p ≠ Outcome.throw h1 := by
  unfold Heap.delete_array
  split
  · simp
  · split <;> simp

theorem Outcome.bind_ne_throw {α β : Type} {x : Outcome α} {f : Heap → α → Outcome β}
    (hx : ∀ h1, x ≠ Outcome.throw h1) (hf : ∀ h a h1, f h a ≠ Outcome.throw h1) (h1 : Heap) :
    x.bind f ≠ Outcome.throw h1 := by
  cases x with
  | ok h a => exact hf h a h1
  | throw h => exact absurd rfl (hx h)
  | ub => simp [Outcome.bind]

theorem for_loop_ne_throw {σ : Type} (body : Nat → σ → Heap → Outcome σ)
    (hb : ∀ i s h h1, body i s h ≠ Outcome.throw h1) :
    ∀ c i s h h1, for_loop body c i s h ≠ Outcome.throw h1 := by
  intro c
  induction c with
  | zero => intro i s h h1; simp [for_loop]
  | succ c ih =>
    intro i s h h1
    rw [for_loop]
    exact Outcome.bind_ne_throw (hb i s h) (fun h2 s2 h3 => ih (i + 1) s2 h2 h3) h1

namespace matrix

theorem add_assign_loop_ne_throw (this rhs : matrix) (c i : Nat) (h h1 : Heap) :
    for_loop (fun n (_ : Unit) h1 =>
        (h1.load this._data n).bind fun h2 x =>
          (h2.load rhs._data n).bind fun h3 y => h3.store this._data n (x + y))
      c i () h ≠ Outcome.throw h1 :=
  for_loop_ne_throw _
    (fun _ _ _ h3 => Outcome.bind_ne_throw (Heap.load_ne_throw _ _ _)
      (fun _ _ h5 => Outcome.bind_ne_throw (Heap.load_ne_throw _ _ _)
        (fun _ _ _ => Heap.store_ne_throw _ _ _ _ _) h5) h3) c i () h h1

/-- `operator+=` throws exactly on a shape mismatch, and then with the heap it
was called in. -/
theorem operator_add_assign_throw_iff (h : Heap) (this rhs : matrix) (h1 : Heap) :
    operator_add_assign h this rhs = Outcome.throw h1 ↔
      (this._rows ≠ rhs._rows ∨ this._cols ≠ rhs._cols) ∧ h1 = h := by
  unfold operator_add_assign
  by_cases hm : this._rows ≠ rhs._rows ∨ this._cols ≠ rhs._cols
  · rw [if_pos hm]
    constructor
    · intro e
      injection e with e
      exact ⟨hm, e.symm⟩
    · rintro ⟨_, rfl⟩
      rfl
  · rw [if_neg hm]
    constructor
    · intro e
      exact absurd e (Outcome.bind_ne_throw (add_assign_loop_ne_throw this rhs _ _ _)
        (fun _ _ _ => by simp) h1)
    · rintro ⟨hm1, _⟩
      exact absurd hm1 hm

/-- The heap left behind when `operator+` unwinds: the copy was allocated and
released again. Every pointer sees what it saw before. -/
theorem block_push_delete (h : Heap) (b : List Int) (p : Option Nat) :
    Heap.block { cells := (h.push b).cells.set h.cells.length none, junk := (h.push b).junk } p
      = h.block p := by
  cases p with
  | none => rfl
  | some q =>
    simp only [Heap.block, Heap.push]
    rcases Nat.lt_trichotomy q h.cells.length with hq | hq | hq
    · rw [List.getElem?_set_ne (by omega), List.getElem?_append_left hq]
    · subst hq
      rw [List.getElem?_set_self (by simp)]
      simp
    · rw [List.getElem?_eq_none (by simp; omega), List.getElem?_eq_none (by omega)]

/-- `operator+` on a valid left operand throws exactly on a shape mismatch; the
heap it unwinds to shows every buffer as before the call. -/
theorem operator_add_throw_iff {h : Heap} {A : matrix} (hA : valid h A) (B : matrix)
    (h1 : Heap) :
    operator_add h A B = Outcome.throw h1 ↔
      (A._rows ≠ B._rows ∨ A._cols ≠ B._cols) ∧
      ∃ buf, storage h A = some buf ∧
        h1 = { cells := (h.push buf).cells.set h.cells.length none, junk := h.junk } := by
  obtain ⟨bufA, hsA, hlA⟩ := (valid_iff h A).1 hA
  unfold operator_add
  rw [ctor_copy_eq hsA hlA, Outcome.bind_ok]
  by_cases hm : A._rows ≠ B._rows ∨ A._cols ≠ B._cols
  · have ht : operator_add_assign (h.push bufA) ⟨A._rows, A._cols, some h.cells.length⟩ B
        = Outcome.throw (h.push bufA) :=
      (operator_add_assign_throw_iff _ _ _ _).2 ⟨hm, rfl⟩
    rw [ht]
    simp only [dtor, Heap.delete_array, Heap.block_push_new, Outcome.bind_ok]
    constructor
    · intro e
      injection e with e
      exact ⟨hm, bufA, hsA, e.symm⟩
    · rintro ⟨_, buf, hb, rfl⟩
      rw [hsA] at hb
      cases hb
      rfl
  · constructor
    · intro e
      exfalso
      cases hres : operator_add_assign (h.push bufA)
          ⟨A._rows, A._cols, some h.cells.length⟩ B with
      | ok h2 s => rw [hres] at e; simp at e
      | throw h2 =>
        exact hm ((operator_add_assign_throw_iff _ _ _ _).1 hres).1
      | ub => rw [hres] at e; simp at e
    · rintro ⟨hm1, _⟩
      exact absurd hm1 hm

theorem mul_loops_ne_throw (this rhs product : matrix) (c i : Nat) (h h1 : Heap) :
    for_loop (fun lhs_row (_ : Unit) h2 =>
        for_loop (fun rhs_col (_ : Unit) h3 =>
            (for_loop (fun k current_element h4 =>
                (this.operator_call h4 lhs_row k).bind fun h5 x =>
                  (rhs.operator_call h5 k rhs_col).bind fun h6 y =>
                    Outcome.ok h6 (current_element + x * y))
              this._cols 0 0 h3).bind fun h4 current_element =>
              product.operator_call_assign h4 lhs_row rhs_col current_element)
          rhs._cols 0 () h2)
      c i () h ≠ Outcome.throw h1 :=
  for_loop_ne_throw _
    (fun _ _ _ _ => for_loop_ne_throw _
      (fun _ _ _ _ => Outcome.bind_ne_throw
        (for_loop_ne_throw _
          (fun _ _ _ _ => Outcome.bind_ne_throw (Heap.load_ne_throw _ _ _)
            (fun _ _ _ => Outcome.bind_ne_throw (Heap.load_ne_throw _ _ _)
              (fun _ _ _ => by simp) _) _) _ _ _ _)
        (fun _ _ _ => Heap.store_ne_throw _ _ _ _ _) _) _ _ _ _ _) c i () h h1

/-- `operator*` throws exactly when the inner dimensions differ, and then with
the heap it was called in. -/
theorem operator_mul_throw_iff (h : Heap) (this rhs : matrix) (h1 : Heap) :
    operator_mul h this rhs = Outcome.throw h1 ↔ this._cols ≠ rhs._rows ∧ h1 = h := by
  unfold operator_mul
  by_cases hm : this._cols ≠ rhs._rows
  · rw [if_pos hm]
    constructor
    · intro e
      injection e with e
      exact ⟨hm, e.symm⟩
    · rintro ⟨_, rfl⟩
      rfl
  · rw [if_neg hm]
    constructor
    · intro e
      simp only [ctor_sized, Outcome.bind_ok] at e
      exact absurd e (Outcome.bind_ne_throw (mul_loops_ne_throw this rhs _ _ _ _)
        (fun _ _ _ => by simp) h1)
    · rintro ⟨hm1, _⟩
      exact absurd hm1 hm

theorem operator_assign_ne_throw (h : Heap) (this other : matrix) (h1 : Heap) :
    operator_assign h this other ≠ Outcome.throw h1 :=
  Outcome.bind_ne_throw (Heap.delete_array_ne_throw _ _) (fun _ _ _ => by simp) h1

/-- `operator*=` throws exactly when `operator*` does. -/
theorem operator_mul_assign_throw_iff (h : Heap) (this rhs : matrix) (h1 : Heap) :
    operator_mul_assign h this rhs = Outcome.throw h1 ↔ this._cols ≠ rhs._rows ∧ h1 = h := by
  rw [← operator_mul_throw_iff]
  unfold operator_mul_assign
  cases hres : operator_mul h this rhs with
  | ok h2 product =>
    rw [Outcome.bind_ok]
    constructor
    · intro e
      exact absurd e (operator_assign_ne_throw _ _ _ _)
    · intro e
      cases e
  | throw h2 => rw [Outcome.bind_throw]
  | ub =>
    rw [Outcome.bind_ub]

/-! ## Equal contents -/

theorem data_ne_fresh {h : Heap} {m : matrix} {b : List Int} (hs : storage h m = some b) :
    m._data ≠ some h.cells.length := by
  intro e
  unfold storage at hs
  rw [e] at hs
  exact absurd (Heap.block_some_lt hs) (Nat.lt_irrefl _)

theorem storage_congr {h h1 : Heap} (hb : ∀ p, h1.block p = h.block p) (m : matrix) :
    storage h1 m = storage h m := by
  unfold storage
  split
  · rfl
  · exact hb _


theorem block_delete_ne {h : Heap} {a : Nat} {p : Option Nat} (hne : p ≠ some a) :
    Heap.block { cells := h.cells.set a none, junk := h.junk } p = h.block p := by
  cases p with
  | none => rfl
  | some q =>
    have : a ≠ q := fun e => hne (by rw [e])
    simp [Heap.block, List.getElem?_set, this]

theorem storage_delete_ne {h : Heap} {a : Nat} {m : matrix} (hne : m._data ≠ some a) :
    storage { cells := h.cells.set a none, junk := h.junk } m = storage h m := by
  unfold storage
  split
  · rfl
  · next q hq => exact block_delete_ne (by rw [← hq]; exact hne)

/-- Destroying a valid matrix succeeds; matrices that do not share its buffer
keep their storage. -/
theorem dtor_spec {h : Heap} {T : matrix} (hT : valid h T) :
    ∃ h1, dtor h T = Outcome.ok h1 () ∧
      ∀ m : matrix, (T._data = none ∨ T._data ≠ m._data) → storage h1 m = storage h m := by
  obtain ⟨buf, hs, _⟩ := (valid_iff h T).1 hT
  unfold dtor Heap.delete_array
  cases hd : T._data with
  | none => exact ⟨h, rfl, fun _ _ => rfl⟩
  | some t =>
    have hb : h.block (some t) = some buf := by
      unfold storage at hs; rw [hd] at hs; exact hs
    simp only [hb]
    refine ⟨_, rfl, ?_⟩
    intro m hm
    apply storage_delete_ne
    rcases hm with hm | hm
    · cases hm
    · exact fun e => hm e.symm

/-- Assigning through `operator()` at an in-range position of a valid matrix
replaces that one element of its buffer. -/
theorem operator_call_assign_spec {h : Heap} {m : matrix} (hv : valid h m) {r c : Nat}
    (hr : r < m._rows) (hc : c < m._cols) (v : Int) :
    ∃ a b, m._data = some a ∧ h.block (some a) = some b ∧
      b.length = m._rows * m._cols ∧
      m.operator_call_assign h r c v
        = Outcome.ok (h.upd a (b.set (r * m._cols + c) v)) () := by
  obtain ⟨b, hs, hl⟩ := (valid_iff h m).1 hv
  have hoff : r * m._cols + c < b.length := by rw [hl]; exact index_lt hr hc
  cases hd : m._data with
  | none =>
    unfold storage at hs
    rw [hd] at hs
    simp only [Option.some.injEq] at hs
    subst hs
    simp at hoff
  | some a =>
    have hb : h.block (some a) = some b := by
      unfold storage at hs; rw [hd] at hs; exact hs
    refine ⟨a, b, rfl, hb, hl, ?_⟩
    unfold operator_call_assign
    rw [hd]
    exact Heap.store_ok v hb hoff

/-- What an in-range element assignment does to the matrix written and to the
others: the position reads back the value, the shape invariant is kept, and a
matrix with another buffer keeps its storage. -/
theorem operator_call_assign_post {h : Heap} {m : matrix} (hv : valid h m) {r c : Nat}
    (hr : r < m._rows) (hc : c < m._cols) (v : Int) :
    ∃ h1, m.operator_call_assign h r c v = Outcome.ok h1 () ∧ valid h1 m ∧
      m.operator_call h1 r c = Outcome.ok h1 v ∧
      ∀ x : matrix, x._data ≠ m._data → storage h1 x = storage h x := by
  obtain ⟨a, b, hd, hb, hl, hrun⟩ := operator_call_assign_spec hv hr hc v
  have hlt := Heap.block_some_lt hb
  have hoff : r * m._cols + c < b.length := by rw [hl]; exact index_lt hr hc
  have hs1 : storage (h.upd a (b.set (r * m._cols + c) v)) m
      = some (b.set (r * m._cols + c) v) := by
    unfold storage; rw [hd]; exact Heap.block_upd_same _ hlt
  have hv1 : valid (h.upd a (b.set (r * m._cols + c) v)) m :=
    (valid_iff _ _).2 ⟨_, hs1, by simpa using hl⟩
  refine ⟨_, hrun, hv1, ?_, ?_⟩
  · rw [operator_call_eq hv1 hr hc, entry_eq hs1]
    simp [List.getElem?_set, hoff]
  · intro x hx
    exact storage_upd_ne _ (by rw [← hd]; exact hx)

/-- The loop of the fill assignment on a matrix whose buffer is block `a`. -/
theorem fill_loop {h : Heap} {this : matrix} {a : Nat} {buf : List Int} (rhs : Int)
    (hd : this._data = some a) (hb : h.block (some a) = some buf) :
    for_loop (fun n (_ : Unit) h1 => h1.store this._data n rhs) buf.length 0 () h
      = Outcome.ok (h.upd a (List.replicate buf.length rhs)) () := by
  have hlt := Heap.block_some_lt hb
  obtain ⟨h1, _, hrun, b, rfl, hbl, hall⟩ := for_loop_inv
    (fun n (_ : Unit) h1 => h1.store this._data n rhs)
    (fun n _ h1 => ∃ b : List Int, h1 = h.upd a b ∧ b.length = buf.length ∧
      ∀ k, k < n → b[k]? = some rhs)
    buf.length
    (by
      rintro n ⟨⟩ h1 hn ⟨b, rfl, hbl, hpre⟩
      refine ⟨h.upd a (b.set n rhs), (), ?_, _, rfl, by simpa using hbl, ?_⟩
      · show (h.upd a b).store this._data n rhs = _
        rw [hd, Heap.store_ok _ (Heap.block_upd_same b hlt) (by omega), Heap.upd_upd]
      · intro k hk
        by_cases hkn : k = n
        · subst hkn
          simp [List.getElem?_set, hbl, hn]
        · rw [List.getElem?_set_ne (Ne.symm hkn)]
          exact hpre k (by omega))
    buf.length 0 () h (by simp)
    ⟨buf, (Heap.upd_self hb).symm, rfl, by intro k hk; omega⟩
  have : b = List.replicate buf.length rhs := by
    apply List.ext_getElem?
    intro k
    by_cases hk : k < buf.length
    · rw [hall k hk, List.getElem?_replicate, if_pos hk]
    · rw [List.getElem?_eq_none (by omega), List.getElem?_eq_none (by simp; omega)]
  rw [hrun, this]

/-- Writing into a valid matrix `B` that does not share the buffer of `A`
succeeds, reads back, and leaves the storage of `A` as it was. -/
theorem write_keeps_other {h1 : Heap} {A B : matrix} (hvB : valid h1 B)
    (hne : A._data ≠ B._data) (r c : Nat) (v : Int) (hr : r < B._rows) (hc : c < B._cols) :
    ∃ h2, B.operator_call_assign h1 r c v = Outcome.ok h2 () ∧
      B.operator_call h2 r c = Outcome.ok h2 v ∧ storage h2 A = storage h1 A := by
  obtain ⟨h2, hrun, _, hread, hframe⟩ := operator_call_assign_post hvB hr hc v
  exact ⟨h2, hrun, hread, hframe A hne⟩

/-- Copy assignment `T = A` for valid `T`, `A` with separate buffers: the new
value of `T` is a copy of `A` in a fresh block, the old buffer of `T` is
released, and `A` keeps its storage. -/
theorem copy_assign_eq {h : Heap} {A T : matrix} (hA : valid h A) (hT : valid h T)
    (hd : T._data = none ∨ T._data ≠ A._data) :
    ∃ h1, copy_assign h T A = Outcome.ok h1 ⟨A._rows, A._cols, some h.cells.length⟩ ∧
      storage h1 ⟨A._rows, A._cols, some h.cells.length⟩ = storage h A ∧
      storage h1 A = storage h A := by
  obtain ⟨bufA, hsA, hlA⟩ := (valid_iff h A).1 hA
  obtain ⟨bufT, hsT, _⟩ := (valid_iff h T).1 hT
  obtain ⟨h1, hrun, hframe⟩ := dtor_spec (valid_push bufA hT)
  refine ⟨h1, ?_, ?_, ?_⟩
  · unfold copy_assign
    rw [ctor_copy_eq hsA hlA, Outcome.bind_ok]
    unfold operator_assign
    show (dtor (h.push bufA) T).bind _ = _
    rw [hrun, Outcome.bind_ok]
    rfl
  · rw [hframe _ (Or.inr (data_ne_fresh hsT)), storage_new, hsA]
  · rw [hframe A hd, storage_push bufA hsA, hsA]

/-- Running the fill assignment on a valid matrix: its buffer ends up holding
`rows * cols` copies of the value; other buffers are untouched, and with no
element to write the heap is left as it is. -/
theorem operator_assign_fill_eq {h : Heap} {A : matrix} (hA : valid h A) (v : Int) :
    ∃ h1, operator_assign_fill h A v = Outcome.ok h1 A ∧
      storage h1 A = some (List.replicate (A._rows * A._cols) v) ∧
      (A._rows * A._cols = 0 → h1 = h) ∧
      ∀ m : matrix, m._data ≠ A._data → storage h1 m = storage h m := by
  obtain ⟨buf, hs, hl⟩ := (valid_iff h A).1 hA
  unfold operator_assign_fill
  cases hd : A._data with
  | none =>
    have hb : buf = [] := by
      unfold storage at hs; rw [hd] at hs; exact (Option.some.inj hs).symm
    have h0 : A._rows * A._cols = 0 := by rw [← hl, hb]; rfl
    refine ⟨h, ?_, ?_, fun _ => rfl, fun _ _ => rfl⟩
    · rw [h0]; rfl
    · rw [h0, hs, hb]; rfl
  | some a =>
    have hb : h.block (some a) = some buf := by
      unfold storage at hs; rw [hd] at hs; exact hs
    have hlt := Heap.block_some_lt hb
    have hrun := fill_loop v hd hb
    rw [hl, hd] at hrun
    refine ⟨h.upd a (List.replicate (A._rows * A._cols) v), ?_, ?_, ?_, ?_⟩
    · rw [hrun, Outcome.bind_ok]
    · unfold storage; rw [hd]; exact Heap.block_upd_same _ hlt
    · intro h0
      rw [h0]
      have : buf = [] := List.eq_nil_of_length_eq_zero (by rw [hl, h0])
      rw [this] at hb
      exact Heap.upd_self hb
    · intro m hm
      exact storage_upd_ne _ hm

/-! ## Literal constructor -/

/-- The inner loop of the literal constructor, run on a matrix whose buffer is
the newest block: the values land at consecutive offsets from
`row * _cols + col`, provided they fit in the block. -/
theorem ctor_list_row_eq {h : Heap} {this : matrix} (hd : this._data = some h.cells.length)
    (row : Nat) :
    ∀ (vs : List Int) (col : Nat) (P : List Int),
      row * this._cols + col + vs.length ≤ P.length →
      ∃ P1 : List Int,
        ctor_list_row this row vs col (h.push P) = Outcome.ok (h.push P1) () ∧
        P1.length = P.length ∧
        ∀ o, P1[o]? =
          if row * this._cols + col ≤ o ∧ o < row * this._cols + col + vs.length
          then vs[o - (row * this._cols + col)]? else P[o]? := by
  intro vs
  induction vs with
  | nil =>
    intro col P _
    refine ⟨P, rfl, rfl, ?_⟩
    intro o
    rw [if_neg (by simp)]
  | cons v rest ih =>
    intro col P hfit
    simp only [List.length_cons] at hfit
    obtain ⟨P1, hrun, hP1l, hP1⟩ :=
      ih (col + 1) (P.set (row * this._cols + col) v) (by simp; omega)
    refine ⟨P1, ?_, by simpa using hP1l, ?_⟩
    · rw [ctor_list_row]
      unfold operator_call_assign
      rw [hd, Heap.store_push v (by omega), Outcome.bind_ok, hrun]
    · intro o
      rw [hP1 o]
      simp only [List.length_cons]
      by_cases h1 : o = row * this._cols + col
      · subst h1
        rw [if_neg (by omega), if_pos (by omega)]
        simp [List.getElem?_set]
        omega
      · by_cases h2 : row * this._cols + col + 1 ≤ o ∧
            o < row * this._cols + col + 1 + rest.length
        · rw [if_pos (by omega), if_pos (by omega)]
          have : o - (row * this._cols + col) = (o - (row * this._cols + (col + 1))) + 1 := by
            omega
          rw [this, List.getElem?_cons_succ]
        · rw [if_neg (by omega), if_neg (by omega), List.getElem?_set_ne (Ne.symm h1)]

/-- The outer loop of the literal constructor on rows that all have `_cols`
values: the rows land one after the other from offset `row * _cols`. -/
theorem ctor_list_rows_eq {h : Heap} {this : matrix} (hd : this._data = some h.cells.length) :
    ∀ (rest : List (List Int)) (row : Nat) (P : List Int),
      (∀ x ∈ rest, x.length = this._cols) →
      row * this._cols + rest.length * this._cols ≤ P.length →
      ∃ P1 : List Int,
        ctor_list_rows this rest row (h.push P) = Outcome.ok (h.push P1) () ∧
        P1.length = P.length ∧
        ∀ o, P1[o]? =
          if row * this._cols ≤ o ∧ o < row * this._cols + rest.length * this._cols
          then rest.flatten[o - row * this._cols]? else P[o]? := by
  intro rest
  induction rest with
  | nil =>
    intro row P _ _
    refine ⟨P, rfl, rfl, ?_⟩
    intro o
    rw [if_neg (by simp)]
  | cons x rest ih =>
    intro row P huni hfit
    have hx : x.length = this._cols := huni x (List.mem_cons_self _ _)
    have e1 : (rest.length + 1) * this._cols = rest.length * this._cols + this._cols := by ring
    have e2 : (row + 1) * this._cols = row * this._cols + this._cols := by ring
    simp only [List.length_cons, e1] at hfit
    obtain ⟨P1, hrun1, hP1l, hP1⟩ := ctor_list_row_eq hd row x 0 P (by omega)
    obtain ⟨P2, hrun2, hP2l, hP2⟩ := ih (row + 1) P1
      (fun y hy => huni y (List.mem_cons_of_mem _ hy)) (by rw [hP1l, e2]; omega)
    refine ⟨P2, ?_, by rw [hP2l, hP1l], ?_⟩
    · rw [ctor_list_rows, hrun1, Outcome.bind_ok, hrun2]
    · intro o
      rw [hP2 o, hP1 o, List.flatten_cons, List.getElem?_append]
      simp only [List.length_cons, e1, e2, hx, Nat.add_zero]
      by_cases h1 : row * this._cols ≤ o ∧ o < row * this._cols + this._cols
      · rw [if_neg (by omega), if_pos h1, if_pos (by omega), if_pos (by omega)]
      · by_cases h2 : row * this._cols + this._cols ≤ o ∧
            o < row * this._cols + this._cols + rest.length * this._cols
        · rw [if_pos h2, if_pos (by omega), if_neg (by omega)]
          congr 1
          omega
        · rw [if_neg h2, if_neg h1, if_neg (by omega)]

theorem length_flatten_uniform {C : Nat} :
    ∀ list : List (List Int), (∀ x ∈ list, x.length = C) →
      list.flatten.length = list.length * C := by
  intro list
  induction list with
  | nil => intro _; simp
  | cons x rest ih =>
    intro huni
    rw [List.flatten_cons, List.length_append, huni x (List.mem_cons_self _ _),
      ih (fun y hy => huni y (List.mem_cons_of_mem _ hy)), List.length_cons]
    ring

theorem getElem?_flatten_uniform {C : Nat} :
    ∀ (list : List (List Int)), (∀ x ∈ list, x.length = C) →
      ∀ (r c : Nat) (row : List Int), list[r]? = some row → c < C →
        list.flatten[r * C + c]? = row[c]? := by
  intro list
  induction list with
  | nil => intro _ r c row hrow; simp at hrow
  | cons x rest ih =>
    intro huni r c row hrow hc
    have hx : x.length = C := huni x (List.mem_cons_self _ _)
    rw [List.flatten_cons, List.getElem?_append, hx]
    cases r with
    | zero =>
      simp only [List.getElem?_cons_zero, Option.some.injEq] at hrow
      subst hrow
      rw [if_pos (by omega)]
      congr 1
      omega
    | succ r =>
      rw [List.getElem?_cons_succ] at hrow
      have e : (r + 1) * C = r * C + C := by ring
      rw [if_neg (by rw [e]; omega),
        ← ih (fun y hy => huni y (List.mem_cons_of_mem _ hy)) r c row hrow hc]
      congr 1
      rw [e]
      omega

/-- Running the literal constructor on a non-empty literal whose rows all have
the length of the first: the buffer is the concatenation of the rows. -/
theorem ctor_list_eq {h : Heap} {first : List Int} {tail : List (List Int)}
    (huni : ∀ x ∈ first :: tail, x.length = first.length) :
    ctor_list h (first :: tail)
      = Outcome.ok (h.push (first :: tail).flatten)
          ⟨(first :: tail).length, first.length, some h.cells.length⟩ := by
  have hlen := length_flatten_uniform (first :: tail) huni
  obtain ⟨P1, hrun, hP1l, hP1⟩ :=
    @ctor_list_rows_eq h ⟨(first :: tail).length, first.length, some h.cells.length⟩ rfl
      (first :: tail) 0
      ((List.range ((first :: tail).length * first.length)).map (h.junk h.cells.length))
      huni (by simp)
  have hP : P1 = (first :: tail).flatten := by
    apply List.ext_getElem?
    intro o
    rw [hP1 o]
    simp only [Nat.zero_mul, Nat.zero_add, Nat.sub_zero, Nat.zero_le, true_and]
    by_cases ho : o < (first :: tail).length * first.length
    · rw [if_pos ho]
    · rw [if_neg ho,
        List.getElem?_eq_none (by simp only [List.length_map, List.length_range]; omega),
        List.getElem?_eq_none (by rw [hlen]; omega)]
  subst hP
  unfold ctor_list
  simp only [Heap.new_array]
  rw [hrun, Outcome.bind_ok]

/-! ## A product whose element count wraps around -/

theorem Heap.store_push_oob {h : Heap} {b : List Int} {n : Nat} (v : Int)
    (hn : ¬ n < b.length) : (h.push b).store (some h.cells.length) n v = Outcome.ub := by
  unfold Heap.store
  simp only [Heap.block_push_new]
  rw [if_neg hn]

/-- When the left operand has no columns, the right one no rows, and the
element count `rows * cols` of the product wraps around to 0, `operator*`
allocates an empty buffer and its first store, `product(0, 0)`, is outside it. -/
theorem operator_mul_wrapped (h : Heap) (M N : Nat) (p q : Option Nat)
    (hwrap : (M + 1) * (N + 1) % size_modulus = 0) :
    operator_mul h ⟨M + 1, 0, p⟩ ⟨0, N + 1, q⟩ = Outcome.ub := by
  unfold operator_mul
  rw [if_neg (by simp)]
  simp only [ctor_sized, Heap.new_array, Outcome.bind_ok, hwrap, List.range_zero, List.map_nil]
  rw [for_loop, for_loop]
  simp only [for_loop, Outcome.bind_ok, operator_call_assign]
  rw [Heap.store_push_oob _ (by simp)]
  rfl

/-! ## The storage invariant along the operations -/

theorem valid_of_storage_eq {h h1 : Heap} {m : matrix} (hs : storage h1 m = storage h m)
    (hv : valid h m) : valid h1 m := by
  unfold valid at hv ⊢
  rw [hs]
  exact hv

theorem valid_ctor (h : Heap) : valid h ctor := by
  unfold valid storage ctor
  rfl

theorem valid_new (h : Heap) (P : List Int) (r c : Nat) (hl : P.length = r * c) :
    valid (h.push P) ⟨r, c, some h.cells.length⟩ :=
  (valid_iff _ _).2 ⟨P, storage_new h P r c, hl⟩

/-- The sized constructor, when `rows * cols` does not wrap, returns a matrix
that satisfies the invariant and leaves every matrix that satisfied it before
as it was. -/
theorem ctor_sized_post (h : Heap) (rows cols : Nat) (hfit : rows * cols < size_modulus) :
    ∃ h1 m, ctor_sized h rows cols = Outcome.ok h1 m ∧ m._rows = rows ∧ m._cols = cols ∧
      valid h1 m ∧ ∀ x, valid h x → valid h1 x ∧ storage h1 x = storage h x := by
  refine ⟨_, _, rfl, rfl, rfl,
    valid_new h _ rows cols (by simp [Nat.mod_eq_of_lt hfit]), ?_⟩
  intro x hx
  obtain ⟨b, hs, _⟩ := (valid_iff h x).1 hx
  exact ⟨valid_push _ hx, (storage_push _ hs).trans hs.symm⟩

/-- The inner loop of the literal constructor either runs into undefined
behaviour or leaves the length of the block it writes unchanged. -/
theorem ctor_list_row_len {h : Heap} {this : matrix} (hd : this._data = some h.cells.length)
    (row : Nat) :
    ∀ (vs : List Int) (col : Nat) (P : List Int) (h1 : Heap),
      ctor_list_row this row vs col (h.push P) = Outcome.ok h1 () →
      ∃ P1 : List Int, h1 = h.push P1 ∧ P1.length = P.length := by
  intro vs
  induction vs with
  | nil =>
    intro col P h1 e
    rw [ctor_list_row] at e
    injection e with e
    exact ⟨P, e.symm, rfl⟩
  | cons v rest ih =>
    intro col P h1 e
    rw [ctor_list_row] at e
    unfold operator_call_assign at e
    rw [hd] at e
    by_cases hn : row * this._cols + col < P.length
    · rw [Heap.store_push v hn, Outcome.bind_ok] at e
      obtain ⟨P1, hP1, hl⟩ := ih (col + 1) _ h1 e
      exact ⟨P1, hP1, by simpa using hl⟩
    · rw [Heap.store_push_oob v hn, Outcome.bind_ub] at e
      cases e

theorem ctor_list_rows_len {h : Heap} {this : matrix} (hd : this._data = some h.cells.length) :
    ∀ (rest : List (List Int)) (row : Nat) (P : List Int) (h1 : Heap),
      ctor_list_rows this rest row (h.push P) = Outcome.ok h1 () →
      ∃ P1 : List Int, h1 = h.push P1 ∧ P1.length = P.length := by
  intro rest
  induction rest with
  | nil =>
    intro row P h1 e
    rw [ctor_list_rows] at e
    injection e with e
    exact ⟨P, e.symm, rfl⟩
  | cons x rest ih =>
    intro row P h1 e
    rw [ctor_list_rows] at e
    cases hrow : ctor_list_row this row x 0 (h.push P) with
    | ok h2 u =>
      rw [hrow, Outcome.bind_ok] at e
      obtain ⟨P1, hP1, hl1⟩ := ctor_list_row_len hd row x 0 P h2 hrow
      subst hP1
      obtain ⟨P2, hP2, hl2⟩ := ih (row + 1) P1 h1 e
      exact ⟨P2, hP2, by rw [hl2, hl1]⟩
    | throw h2 => rw [hrow, Outcome.bind_throw] at e; cases e
    | ub => rw [hrow, Outcome.bind_ub] at e; cases e

/-- Whenever the literal constructor returns, the matrix it built has the
outer length as `_rows`, the first inner length as `_cols`, and a buffer of
`_rows * _cols` elements. -/
theorem ctor_list_valid {h h1 : Heap} {list : List (List Int)} {m : matrix}
    (e : ctor_list h list = Outcome.ok h1 m) :
    valid h1 m ∧ m._rows = list.length ∧
      (∀ first, list.head? = some first → m._cols = first.length) ∧
      ∀ x, valid h x → valid h1 x ∧ storage h1 x = storage h x := by
  cases list with
  | nil => simp [ctor_list] at e
  | cons first tail =>
    unfold ctor_list at e
    simp only [Heap.new_array] at e
    cases hrows : ctor_list_rows
        ⟨(first :: tail).length, first.length, some h.cells.length⟩ (first :: tail) 0
        (h.push ((List.range ((first :: tail).length * first.length)).map
          (h.junk h.cells.length))) with
    | ok h2 u =>
      rw [hrows, Outcome.bind_ok] at e
      obtain ⟨P1, hP1, hl⟩ := ctor_list_rows_len rfl _ _ _ _ hrows
      injection e with e1 e2
      subst e1
      subst e2
      subst hP1
      refine ⟨valid_new h P1 _ _ (by simpa using hl), rfl, ?_, ?_⟩
      · intro f hf
        simp only [List.head?_cons, Option.some.injEq] at hf
        rw [← hf]
      · intro x hx
        obtain ⟨b, hs, _⟩ := (valid_iff h x).1 hx
        exact ⟨valid_push _ hx, by rw [storage_push _ hs, hs]⟩
    | throw h2 => rw [hrows, Outcome.bind_throw] at e; cases e
    | ub => rw [hrows, Outcome.bind_ub] at e; cases e

/-- `operator+=` on valid operands of equal shape, the left one with any
buffer (possibly null, possibly the right operand's): it returns `*this`, both
operands satisfy the invariant afterwards, every entry is the sum of the two
old entries, and matrices with another buffer keep their storage. -/
theorem operator_add_assign_post {h : Heap} {A B : matrix} (hA : valid h A) (hB : valid h B)
    (hr : A._rows = B._rows) (hc : A._cols = B._cols) :
    ∃ h1, operator_add_assign h A B = Outcome.ok h1 A ∧ valid h1 A ∧ valid h1 B ∧
      (∀ i j, i < A._rows → j < A._cols →
        entry h1 A i j = entry h A i j + entry h B i j) ∧
      ∀ m : matrix, m._data ≠ A._data → storage h1 m = storage h m := by
  obtain ⟨bufA, hsA, hlA⟩ := (valid_iff h A).1 hA
  obtain ⟨bufB, hsB, hlB⟩ := (valid_iff h B).1 hB
  have hlen : bufB.length = bufA.length := by rw [hlA, hlB, hr, hc]
  have hnm : ¬ (A._rows ≠ B._rows ∨ A._cols ≠ B._cols) := by simp [hr, hc]
  cases hd : A._data with
  | none =>
    have hb : bufA = [] := by
      unfold storage at hsA; rw [hd] at hsA; exact (Option.some.inj hsA).symm
    have h0 : A._rows * A._cols = 0 := by rw [← hlA, hb]; rfl
    refine ⟨h, ?_, hA, hB, ?_, fun _ _ => rfl⟩
    · unfold operator_add_assign
      rw [if_neg hnm, h0]
      rfl
    · intro i j hi hj
      have := index_lt hi hj
      omega
  | some a =>
    have hbA : h.block (some a) = some bufA := by
      unfold storage at hsA; rw [hd] at hsA; exact hsA
    have hlt := Heap.block_some_lt hbA
    obtain ⟨b, hrun, hbl, hb⟩ := add_assign_loop hd hbA hsB hlen
    rw [hlA, hd] at hrun
    have hs1 : storage (h.upd a b) A = some b := by
      unfold storage; rw [hd]; exact Heap.block_upd_same b hlt
    have hv1 : valid (h.upd a b) A := (valid_iff _ _).2 ⟨b, hs1, by rw [hbl, hlA]⟩
    refine ⟨h.upd a b, ?_, hv1, ?_, ?_, ?_⟩
    · unfold operator_add_assign
      rw [if_neg hnm, hd, hrun, Outcome.bind_ok]
    · by_cases hBa : B._data = some a
      · have : storage (h.upd a b) B = some b := by
          unfold storage; rw [hBa]; exact Heap.block_upd_same b hlt
        exact (valid_iff _ _).2 ⟨b, this, by rw [hbl, hlA, hr, hc]⟩
      · exact valid_of_storage_eq (storage_upd_ne b hBa) hB
    · intro i j hi hj
      have hn : i * A._cols + j < bufA.length := by rw [hlA]; exact index_lt hi hj
      rw [entry_eq hs1, hb _ hn, entry_eq hsA, entry_eq hsB, ← hc]
      rfl
    · intro m hm
      exact storage_upd_ne b hm

/-- `operator=` with an initialised parameter `O` whose buffer is not the
target's: the target's old buffer is released, `*this` takes over the fields of
the parameter, and every matrix with another buffer than the old target keeps
its storage. -/
theorem operator_assign_post {h : Heap} {T O : matrix} (hT : valid h T) :
    ∃ h1, operator_assign h T O = Outcome.ok h1 O ∧
      ∀ m : matrix, (T._data = none ∨ T._data ≠ m._data) → storage h1 m = storage h m := by
  obtain ⟨h1, hrun, hframe⟩ := dtor_spec hT
  refine ⟨h1, ?_, hframe⟩
  unfold operator_assign
  show (dtor h T).bind _ = _
  rw [hrun, Outcome.bind_ok]
  rfl

/-- `operator*=` on valid operands with matching inner dimension and a product
of fewer than `2 ^ 64` elements: `*this`
becomes the product computed by `operator*` from the old `*this`, in a fresh
block; the old buffer of `*this` is released and other buffers are kept. -/
theorem operator_mul_assign_eq {h : Heap} {A B : matrix} (hA : valid h A) (hB : valid h B)
    (hK : A._cols = B._rows) (hfit : A._rows * B._cols < size_modulus) :
    ∃ (P : List Int) (h2 : Heap),
      operator_mul h A B = Outcome.ok (h.push P) ⟨A._rows, B._cols, some h.cells.length⟩ ∧
      operator_mul_assign h A B = Outcome.ok h2 ⟨A._rows, B._cols, some h.cells.length⟩ ∧
      P.length = A._rows * B._cols ∧
      storage h2 ⟨A._rows, B._cols, some h.cells.length⟩ = some P ∧
      (∀ i j, i < A._rows → j < B._cols →
        P[i * B._cols + j]?
          = some (∑ k ∈ Finset.range A._cols, entry h A i k * entry h B k j)) ∧
      ∀ m : matrix, valid h m → (A._data = none ∨ A._data ≠ m._data) →
        storage h2 m = storage h m := by
  obtain ⟨bufA, hsA, _⟩ := (valid_iff h A).1 hA
  obtain ⟨P, hrun, hPl, hP⟩ := operator_mul_eq hA hB hK hfit
  obtain ⟨h2, hasg, hframe⟩ :=
    @operator_assign_post (h.push P) A ⟨A._rows, B._cols, some h.cells.length⟩
      (valid_push P hA)
  refine ⟨P, h2, hrun, ?_, hPl, ?_, hP, ?_⟩
  · unfold operator_mul_assign
    rw [hrun, Outcome.bind_ok, hasg]
  · rw [hframe _ (Or.inr (data_ne_fresh hsA)), storage_new]
  · intro m hm hsep
    obtain ⟨b, hs, _⟩ := (valid_iff h m).1 hm
    rw [hframe m hsep, storage_push P hs, hs]

theorem index_inj {N r c r1 c1 : Nat} (hc : c < N) (hc1 : c1 < N)
    (e : r1 * N + c1 = r * N + c) : r1 = r ∧ c1 = c := by
  have h1 := div_mod_index (i := r1) hc1
  have h2 := div_mod_index (i := r) hc
  rw [e] at h1
  exact ⟨h1.1.symm.trans h2.1, h1.2.symm.trans h2.2⟩

/-! ## Rendering -/

theorem digitChar_ne_newline (d : Nat) (hd : d < 10) : Nat.digitChar d ≠ '\n' := by
  interval_cases d <;> decide

theorem toDigitsCore_no_newline :
    ∀ (fuel n : Nat) (ds : List Char), '\n' ∉ ds → '\n' ∉ Nat.toDigitsCore 10 fuel n ds := by
  intro fuel
  induction fuel with
  | zero => intro n ds hds; simpa [Nat.toDigitsCore] using hds
  | succ fuel ih =>
    intro n ds hds
    have hcons : '\n' ∉ Nat.digitChar (n % 10) :: ds := by
      intro hmem
      rcases List.mem_cons.1 hmem with e | e
      · exact digitChar_ne_newline (n % 10) (Nat.mod_lt _ (by decide)) e.symm
      · exact hds e
    unfold Nat.toDigitsCore
    simp only
    split
    · exact hcons
    · exact ih _ _ hcons

theorem size_text_no_newline (n : Nat) : '\n' ∉ size_text n :=
  toDigitsCore_no_newline _ _ [] (by simp)

theorem int_text_no_newline (x : Int) : '\n' ∉ int_text x := by
  cases x with
  | ofNat n => exact toDigitsCore_no_newline _ _ [] (by simp)
  | negSucc n =>
    intro hmem
    rcases List.mem_cons.1 hmem with e | e
    · exact absurd e (by decide)
    · exact toDigitsCore_no_newline _ _ [] (by simp) e

theorem count_row_line (row : List Int) : (row_line row).count '\n' = 1 := by
  unfold row_line
  rw [List.count_append]
  have h0 : List.count '\n' (row.map fun x => int_text x ++ [' ']).flatten = 0 := by
    rw [List.count_eq_zero]
    intro hmem
    obtain ⟨l, hl, hin⟩ := List.mem_flatten.1 hmem
    obtain ⟨x, _, rfl⟩ := List.mem_map.1 hl
    rcases List.mem_append.1 hin with e | e
    · exact int_text_no_newline x e
    · simp at e
  rw [h0]
  rfl

theorem count_row_lines (rows : List (List Int)) :
    ((rows.map row_line).flatten).count '\n' = rows.length := by
  induction rows with
  | nil => rfl
  | cons r rest ih =>
    rw [List.map_cons, List.flatten_cons, List.count_append, count_row_line, ih,
      List.length_cons]
    omega

theorem count_dims_line (R C : Nat) : (dims_line R C).count '\n' = 1 := by
  unfold dims_line
  simp only [List.count_append]
  rw [List.count_eq_zero.2 (size_text_no_newline R), List.count_eq_zero.2 (size_text_no_newline C)]
  rfl

/-- The column loop of `to_string` on row `r` of a valid matrix appends every
element text followed by a space and leaves the heap alone. -/
theorem to_string_cols {h : Heap} {this : matrix} (hv : valid h this) {r : Nat}
    (hr : r < this._rows) (oss : List Char) :
    for_loop (fun col oss1 h2 =>
        (this.operator_call h2 r col).bind fun h3 x =>
          Outcome.ok h3 (oss1 ++ int_text x ++ [' ']))
      this._cols 0 oss h
      = Outcome.ok h (oss ++
          ((List.range this._cols).map fun c => int_text (entry h this r c) ++ [' ']).flatten) := by
  obtain ⟨h1, s1, hrun, hh, hs⟩ := for_loop_inv
    (fun col oss1 h2 =>
        (this.operator_call h2 r col).bind fun h3 x =>
          Outcome.ok h3 (oss1 ++ int_text x ++ [' ']))
    (fun j oss1 h1 => h1 = h ∧ oss1 = oss ++
      ((List.range j).map fun c => int_text (entry h this r c) ++ [' ']).flatten)
    this._cols
    (by
      rintro j oss1 h1 hj ⟨hh, hoss⟩
      subst hh
      refine ⟨h1, oss1 ++ int_text (entry h1 this r j) ++ [' '], ?_, rfl, ?_⟩
      · show ((this.operator_call h1 r j).bind _) = _
        rw [operator_call_eq hv hr hj, Outcome.bind_ok]
      · rw [hoss, List.range_succ, List.map_append, List.flatten_append]
        simp)
    this._cols 0 oss h (by simp) ⟨rfl, by simp⟩
  rw [hrun, hh, hs]

/-- Running `to_string` on a valid matrix: the heap is untouched and the text
is one `row_line` per row followed by the `dims_line`. -/
theorem to_string_eq {h : Heap} {this : matrix} (hv : valid h this) :
    to_string h this
      = Outcome.ok h (((rows_of h this).map row_line).flatten
          ++ dims_line this._rows this._cols) := by
  obtain ⟨h1, s1, hrun, hh, hs⟩ := for_loop_inv
    (fun row oss h1 =>
      (for_loop (fun col oss1 h2 =>
          (this.operator_call h2 row col).bind fun h3 x =>
            Outcome.ok h3 (oss1 ++ int_text x ++ [' ']))
        this._cols 0 oss h1).bind fun h2 oss1 => Outcome.ok h2 (oss1 ++ ['\n']))
    (fun i oss h1 => h1 = h ∧ oss = (((List.range i).map fun r =>
      (List.range this._cols).map fun c => entry h this r c).map row_line).flatten)
    this._rows
    (by
      rintro i oss h1 hi ⟨hh, hoss⟩
      subst hh
      refine ⟨h1, oss ++ ((List.range this._cols).map fun c =>
          int_text (entry h1 this i c) ++ [' ']).flatten ++ ['\n'], ?_, rfl, ?_⟩
      · show ((for_loop _ this._cols 0 oss h1).bind _) = _
        rw [to_string_cols hv hi, Outcome.bind_ok]
      · rw [hoss, List.range_succ, List.map_append, List.map_append, List.flatten_append]
        simp [row_line, List.map_map, Function.comp_def])
    this._rows 0 [] h (by simp) ⟨rfl, by simp⟩
  unfold to_string
  rw [hrun, Outcome.bind_ok, hh, hs]
  simp [rows_of, dims_line]

/-! ## The 2x2 scenario -/

/-- A list of four elements is determined by its four entries. -/
theorem list_eq_four {S : List Int} {a b c d : Int} (hl : S.length = 4)
    (h0 : S[0]? = some a) (h1 : S[1]? = some b) (h2 : S[2]? = some c)
    (h3 : S[3]? = some d) : S = [a, b, c, d] := by
  match S, hl with
  | [x0, x1, x2, x3], _ =>
    simp only [List.getElem?_cons_zero, List.getElem?_cons_succ, Option.some.injEq] at h0 h1 h2 h3
    rw [h0, h1, h2, h3]

/-- A valid 2x2 matrix with buffer `[a, b, c, d]` has the shape and the buffer
contents of the matrix then built from the literal `[[a, b], [c, d]]`. -/
theorem equals_literal {h : Heap} {X : matrix} {a b c d : Int} (hX : valid h X)
    (hr : X._rows = 2) (hc : X._cols = 2) (hs : storage h X = some [a, b, c, d]) :
    ∃ h1 E, ctor_list h [[a, b], [c, d]] = Outcome.ok h1 E ∧
      X._rows = E._rows ∧ X._cols = E._cols ∧ valid h1 E ∧ valid h1 X ∧
      storage h1 X = storage h1 E ∧ storage h1 X = some [a, b, c, d] := by
  have huni : ∀ x ∈ ([[a, b], [c, d]] : List (List Int)), x.length = [a, b].length := by
    intro x hx
    simp only [List.mem_cons, List.mem_singleton, List.not_mem_nil, or_false] at hx
    rcases hx with rfl | rfl <;> rfl
  have hrun := @ctor_list_eq h [a, b] [[c, d]] huni
  have hsE : storage (h.push [a, b, c, d]) ⟨2, 2, some h.cells.length⟩ = some [a, b, c, d] :=
    storage_new h _ _ _
  have hvE : valid (h.push [a, b, c, d]) ⟨2, 2, some h.cells.length⟩ :=
    valid_new h _ 2 2 rfl
  have hsX : storage (h.push [a, b, c, d]) X = some [a, b, c, d] := storage_push _ hs
  exact ⟨h.push [a, b, c, d], ⟨2, 2, some h.cells.length⟩, hrun, hr, hc, hvE,
    valid_push _ hX, hsX.trans hsE.symm, hsX⟩

/-- The outer loop of the literal constructor on rows of any length, all of
whose values fall inside the block: an offset no row writes keeps its content,
and a value is what its offset holds at the end unless a later row writes
there. Row `k` of `rest` is row `row + k` of the literal. -/
theorem ctor_list_rows_ragged {h : Heap} {this : matrix}
    (hd : this._data = some h.cells.length) :
    ∀ (rest : List (List Int)) (row : Nat) (P : List Int),
      (∀ k x, rest[k]? = some x → (row + k) * this._cols + x.length ≤ P.length) →
      ∃ P1 : List Int,
        ctor_list_rows this rest row (h.push P) = Outcome.ok (h.push P1) () ∧
        P1.length = P.length ∧
        (∀ o, (∀ k x, rest[k]? = some x →
            ¬ ((row + k) * this._cols ≤ o ∧ o < (row + k) * this._cols + x.length)) →
          P1[o]? = P[o]?) ∧
        (∀ k x c v, rest[k]? = some x → x[c]? = some v →
          (∀ k1 x1, k < k1 → rest[k1]? = some x1 →
            ¬ ((row + k1) * this._cols ≤ (row + k) * this._cols + c ∧
              (row + k) * this._cols + c < (row + k1) * this._cols + x1.length)) →
          P1[(row + k) * this._cols + c]? = some v) := by
  intro rest
  induction rest with
  | nil =>
    intro row P _
    refine ⟨P, rfl, rfl, fun _ _ => rfl, ?_⟩
    intro k x c v hk
    simp at hk
  | cons x xs ih =>
    intro row P hfit
    have hshift : ∀ k, row + 1 + k = row + (k + 1) := fun k => by omega
    have hfit0 : row * this._cols + 0 + x.length ≤ P.length := by
      have := hfit 0 x (by simp)
      simpa using this
    obtain ⟨P1, hrun1, hP1l, hP1⟩ := ctor_list_row_eq hd row x 0 P hfit0
    obtain ⟨P2, hrun2, hP2l, hkeep, hval⟩ := ih (row + 1) P1 (by
      intro k y hk
      rw [hP1l, hshift]
      exact hfit (k + 1) y (by simpa using hk))
    refine ⟨P2, ?_, by rw [hP2l, hP1l], ?_, ?_⟩
    · rw [ctor_list_rows, hrun1, Outcome.bind_ok, hrun2]
    · intro o hno
      rw [hkeep o (by
        intro k y hk
        rw [hshift]
        exact hno (k + 1) y (by simpa using hk)), hP1 o]
      have h0 := hno 0 x (by simp)
      rw [if_neg (by simpa using h0)]
    · intro k y c v hk hc hlater
      cases k with
      | zero =>
        simp only [List.getElem?_cons_zero, Option.some.injEq] at hk
        subst hk
        have hcl : c < x.length := by
          by_contra hge
          rw [List.getElem?_eq_none (by omega)] at hc
          cases hc
        rw [hkeep _ (by
          intro k1 x1 hk1
          rw [hshift]
          exact hlater (k1 + 1) x1 (by omega) (by simpa using hk1)), hP1]
        simp only [Nat.add_zero]
        rw [if_pos (by omega)]
        simpa using hc
      | succ k =>
        rw [List.getElem?_cons_succ] at hk
        have := hval k y c v hk hc (by
          intro k1 x1 hlt hk1
          rw [hshift, hshift]
          exact hlater (k1 + 1) x1 (by omega) (by simpa using hk1))
        rw [hshift] at this
        exact this

/-- The literal constructor on a non-empty literal all of whose values fall
inside the `rows * cols` buffer. -/
theorem ctor_list_fit_eq {h : Heap} {first : List Int} {tail : List (List Int)}
    (hfit : ∀ r row, (first :: tail)[r]? = some row →
      r * first.length + row.length ≤ (first :: tail).length * first.length) :
    ∃ P : List Int,
      ctor_list h (first :: tail)
        = Outcome.ok (h.push P) ⟨(first :: tail).length, first.length, some h.cells.length⟩ ∧
      P.length = (first :: tail).length * first.length ∧
      (∀ o, (∀ r row, (first :: tail)[r]? = some row →
          ¬ (r * first.length ≤ o ∧ o < r * first.length + row.length)) →
        P[o]? = ((List.range ((first :: tail).length * first.length)).map
          (h.junk h.cells.length))[o]?) ∧
      (∀ r row c v, (first :: tail)[r]? = some row → row[c]? = some v →
        (∀ r1 row1, r < r1 → (first :: tail)[r1]? = some row1 →
          ¬ (r1 * first.length ≤ r * first.length + c ∧
            r * first.length + c < r1 * first.length + row1.length)) →
        P[r * first.length + c]? = some v) := by
  obtain ⟨P1, hrun, hP1l, hkeep, hval⟩ :=
    @ctor_list_rows_ragged h ⟨(first :: tail).length, first.length, some h.cells.length⟩ rfl
      (first :: tail) 0
      ((List.range ((first :: tail).length * first.length)).map (h.junk h.cells.length))
      (by
        intro k x hk
        simp only [List.length_map, List.length_range, Nat.zero_add]
        exact hfit k x hk)
  simp only [Nat.zero_add] at hkeep hval
  refine ⟨P1, ?_, by simpa using hP1l, hkeep, hval⟩
  unfold ctor_list
  simp only [Heap.new_array]
  rw [hrun, Outcome.bind_ok]

/-- The literal `[[1,2],[3,4,5,6],[7]]` in any heap: a 3x2 matrix with buffer
`[1, 2, 3, 4, 7, 6]`. -/
theorem ctor_list_example (h : Heap) :
    ctor_list h [[1, 2], [3, 4, 5, 6], [7]]
      = Outcome.ok (h.push [1, 2, 3, 4, 7, 6]) ⟨3, 2, some h.cells.length⟩ := by
  have hP : (List.range (3 * 2)).map (h.junk h.cells.length)
      = [h.junk h.cells.length 0, h.junk h.cells.length 1, h.junk h.cells.length 2,
         h.junk h.cells.length 3, h.junk h.cells.length 4, h.junk h.cells.length 5] := rfl
  unfold ctor_list
  simp only [Heap.new_array, List.length_cons, List.length_nil, Nat.zero_add, Nat.reduceAdd]
  rw [hP]
  simp only [ctor_list_rows, ctor_list_row, operator_call_assign, Nat.reduceMul, Nat.reduceAdd]
  repeat (first
    | rw [Outcome.bind_ok]
    | rw [Heap.store_push _ (by simp)]
    | simp only [List.set_cons_zero, List.set_cons_succ])

end matrix

/-! ## Claims -/

namespace matrix

/-- C2: for valid operands of equal shape, `operator+` returns normally with a
matrix of that shape, held in a buffer of its own, whose element `(i, j)` is
`A(i,j) + B(i,j)`; the buffers of `A` and `B` hold what they held before. -/
theorem operator_add_correct (h : Heap) (A B : matrix) (hA : valid h A) (hB : valid h B)
    (hr : A._rows = B._rows) (hc : A._cols = B._cols) :
    ∃ h1 S, operator_add h A B = Outcome.ok h1 S ∧
      S._rows = A._rows ∧ S._cols = A._cols ∧ valid h1 S ∧
      S._data ≠ A._data ∧ S._data ≠ B._data ∧
      (∀ i j, i < A._rows → j < A._cols →
        S.operator_call h1 i j = Outcome.ok h1 (entry h A i j + entry h B i j)) ∧
      storage h1 A = storage h A ∧ storage h1 B = storage h B ∧
      valid h1 A ∧ valid h1 B := by
  obtain ⟨S, hrun, hSl, hS⟩ := operator_add_eq hA hB hr hc
  obtain ⟨bufA, hsA, _⟩ := (valid_iff h A).1 hA
  obtain ⟨bufB, hsB, _⟩ := (valid_iff h B).1 hB
  have hv : valid (h.push S) ⟨A._rows, A._cols, some h.cells.length⟩ :=
    (valid_iff _ _).2 ⟨S, storage_new h S _ _, hSl⟩
  refine ⟨_, _, hrun, rfl, rfl, hv, (data_ne_fresh hsA).symm, (data_ne_fresh hsB).symm,
    ?_, ?_, ?_, valid_push S hA, valid_push S hB⟩
  · intro i j hi hj
    rw [operator_call_eq hv hi hj, entry_eq (storage_new h S _ _)]
    show Outcome.ok _ ((S[i * A._cols + j]?).getD 0) = _
    rw [hS i j hi hj]
    rfl
  · rw [storage_push S hsA, hsA]
  · rw [storage_push S hsB, hsB]

/-- Witness for C2 on `[[1,2],[3,4]] + [[5,6],[7,8]]`. -/
theorem operator_add_correct_witness :
    valid heap0 mat_a ∧ valid heap0 mat_b ∧
    ∃ h1 S, operator_add heap0 mat_a mat_b = Outcome.ok h1 S ∧
      S._rows = mat_a._rows ∧ S._cols = mat_a._cols ∧ valid h1 S ∧
      S._data ≠ mat_a._data ∧ S._data ≠ mat_b._data ∧
      (∀ i j, i < mat_a._rows → j < mat_a._cols →
        S.operator_call h1 i j
          = Outcome.ok h1 (entry heap0 mat_a i j + entry heap0 mat_b i j)) ∧
      storage h1 mat_a = storage heap0 mat_a ∧ storage h1 mat_b = storage heap0 mat_b ∧
      valid h1 mat_a ∧ valid h1 mat_b :=
  ⟨by decide, by decide,
    operator_add_correct heap0 mat_a mat_b (by decide) (by decide) (by decide) (by decide)⟩

/-- C3: `A += B` throws the dimension-mismatch error exactly when the row
counts or the column counts differ, and then the heap is the one it was called
in; `A + B` on a valid `A` throws under the same condition, and then every
matrix sees the storage it saw before the call. -/
theorem add_dimension_mismatch (h : Heap) (A B : matrix) :
    ((∃ h1, operator_add_assign h A B = Outcome.throw h1) ↔
      (A._rows ≠ B._rows ∨ A._cols ≠ B._cols)) ∧
    (∀ h1, operator_add_assign h A B = Outcome.throw h1 → h1 = h) ∧
    (valid h A →
      ((∃ h1, operator_add h A B = Outcome.throw h1) ↔
        (A._rows ≠ B._rows ∨ A._cols ≠ B._cols)) ∧
      (∀ h1, operator_add h A B = Outcome.throw h1 →
        ∀ m : matrix, storage h1 m = storage h m)) := by
  refine ⟨⟨?_, ?_⟩, ?_, ?_⟩
  · rintro ⟨h1, e⟩
    exact ((operator_add_assign_throw_iff h A B h1).1 e).1
  · intro hm
    exact ⟨h, (operator_add_assign_throw_iff h A B h).2 ⟨hm, rfl⟩⟩
  · intro h1 e
    exact ((operator_add_assign_throw_iff h A B h1).1 e).2
  · intro hA
    obtain ⟨bufA, hsA, _⟩ := (valid_iff h A).1 hA
    refine ⟨⟨?_, ?_⟩, ?_⟩
    · rintro ⟨h1, e⟩
      exact ((operator_add_throw_iff hA B h1).1 e).1
    · intro hm
      exact ⟨_, (operator_add_throw_iff hA B _).2 ⟨hm, bufA, hsA, rfl⟩⟩
    · intro h1 e m
      obtain ⟨_, buf, _, rfl⟩ := (operator_add_throw_iff hA B h1).1 e
      exact storage_congr (block_push_delete h buf) m

/-- Witness for C3 on a 2x3 left operand and a 2x2 right operand. -/
theorem add_dimension_mismatch_witness :
    valid heap0 mat_c ∧
    ((∃ h1, operator_add heap0 mat_c mat_a = Outcome.throw h1) ↔
        (mat_c._rows ≠ mat_a._rows ∨ mat_c._cols ≠ mat_a._cols)) ∧
      (∀ h1, operator_add heap0 mat_c mat_a = Outcome.throw h1 →
        ∀ m : matrix, storage h1 m = storage heap0 m) :=
  ⟨by decide, (add_dimension_mismatch heap0 mat_c mat_a).2.2 (by decide)⟩

/-- C4: `operator*` and `operator*=` throw the dimension-mismatch error exactly
when `A.cols != B.rows`; the heap at the throw is the heap of the call, so no
buffer has changed. A 2x3 matrix times a 2x2 matrix throws. -/
theorem mul_dimension_mismatch (h : Heap) (A B : matrix) :
    ((∃ h1, operator_mul h A B = Outcome.throw h1) ↔ A._cols ≠ B._rows) ∧
    (∀ h1, operator_mul h A B = Outcome.throw h1 → h1 = h) ∧
    ((∃ h1, operator_mul_assign h A B = Outcome.throw h1) ↔ A._cols ≠ B._rows) ∧
    (∀ h1, operator_mul_assign h A B = Outcome.throw h1 → h1 = h) ∧
    (∀ p q : Option Nat, operator_mul h ⟨2, 3, p⟩ ⟨2, 2, q⟩ = Outcome.throw h) ∧
    (∀ p q : Option Nat, operator_mul_assign h ⟨2, 3, p⟩ ⟨2, 2, q⟩ = Outcome.throw h) := by
  refine ⟨⟨?_, ?_⟩, ?_, ⟨?_, ?_⟩, ?_, ?_, ?_⟩
  · rintro ⟨h1, e⟩
    exact ((operator_mul_throw_iff h A B h1).1 e).1
  · intro hm
    exact ⟨h, (operator_mul_throw_iff h A B h).2 ⟨hm, rfl⟩⟩
  · intro h1 e
    exact ((operator_mul_throw_iff h A B h1).1 e).2
  · rintro ⟨h1, e⟩
    exact ((operator_mul_assign_throw_iff h A B h1).1 e).1
  · intro hm
    exact ⟨h, (operator_mul_assign_throw_iff h A B h).2 ⟨hm, rfl⟩⟩
  · intro h1 e
    exact ((operator_mul_assign_throw_iff h A B h1).1 e).2
  · intro p q
    exact (operator_mul_throw_iff h _ _ h).2 ⟨by simp, rfl⟩
  · intro p q
    exact (operator_mul_assign_throw_iff h _ _ h).2 ⟨by simp, rfl⟩

/-- C7: a copy `B` of a valid matrix `A`, made by the copy constructor or by
copy assignment to a valid matrix `T` with a buffer of its own, has the shape
and the elements of `A`; writing any value at any in-range position of `B`
succeeds, is read back from `B`, and leaves the storage of `A` unchanged. -/
theorem copy_independent (h : Heap) (A T : matrix) (hA : valid h A) (hT : valid h T)
    (hd : T._data = none ∨ T._data ≠ A._data) :
    (∃ h1 B, ctor_copy h A = Outcome.ok h1 B ∧
      B._rows = A._rows ∧ B._cols = A._cols ∧ valid h1 B ∧
      storage h1 B = storage h A ∧ storage h1 A = storage h A ∧
      ∀ r c v, r < B._rows → c < B._cols →
        ∃ h2, B.operator_call_assign h1 r c v = Outcome.ok h2 () ∧
          B.operator_call h2 r c = Outcome.ok h2 v ∧ storage h2 A = storage h A) ∧
    (∃ h1 B, copy_assign h T A = Outcome.ok h1 B ∧
      B._rows = A._rows ∧ B._cols = A._cols ∧ valid h1 B ∧
      storage h1 B = storage h A ∧ storage h1 A = storage h A ∧
      ∀ r c v, r < B._rows → c < B._cols →
        ∃ h2, B.operator_call_assign h1 r c v = Outcome.ok h2 () ∧
          B.operator_call h2 r c = Outcome.ok h2 v ∧ storage h2 A = storage h A) := by
  obtain ⟨bufA, hsA, hlA⟩ := (valid_iff h A).1 hA
  have hne : A._data ≠ some h.cells.length := data_ne_fresh hsA
  constructor
  · have hsB : storage (h.push bufA) ⟨A._rows, A._cols, some h.cells.length⟩ = storage h A := by
      rw [storage_new, hsA]
    have hsA1 : storage (h.push bufA) A = storage h A := by
      rw [storage_push bufA hsA, hsA]
    have hvB : valid (h.push bufA) ⟨A._rows, A._cols, some h.cells.length⟩ :=
      (valid_iff _ _).2 ⟨bufA, storage_new h bufA _ _, hlA⟩
    refine ⟨_, _, ctor_copy_eq hsA hlA, rfl, rfl, hvB, hsB, hsA1, ?_⟩
    intro r c v hr hc
    obtain ⟨h2, hw, hrd, hfr⟩ := write_keeps_other hvB hne r c v hr hc
    exact ⟨h2, hw, hrd, by rw [hfr, hsA1]⟩
  · obtain ⟨h1, hrun, hsB, hsA1⟩ := copy_assign_eq hA hT hd
    have hvB : valid h1 ⟨A._rows, A._cols, some h.cells.length⟩ :=
      (valid_iff _ _).2 ⟨bufA, by rw [hsB, hsA], hlA⟩
    refine ⟨_, _, hrun, rfl, rfl, hvB, hsB, hsA1, ?_⟩
    intro r c v hr hc
    obtain ⟨h2, hw, hrd, hfr⟩ := write_keeps_other hvB hne r c v hr hc
    exact ⟨h2, hw, hrd, by rw [hfr, hsA1]⟩

/-- Witness for C7: copying `[[1,2],[3,4]]`, and assigning it to `[[5,6],[7,8]]`. -/
theorem copy_independent_witness :
    valid heap0 mat_a ∧ valid heap0 mat_b ∧
    (∃ h1 B, ctor_copy heap0 mat_a = Outcome.ok h1 B ∧
      B._rows = mat_a._rows ∧ B._cols = mat_a._cols ∧ valid h1 B ∧
      storage h1 B = storage heap0 mat_a ∧ storage h1 mat_a = storage heap0 mat_a ∧
      ∀ r c v, r < B._rows → c < B._cols →
        ∃ h2, B.operator_call_assign h1 r c v = Outcome.ok h2 () ∧
          B.operator_call h2 r c = Outcome.ok h2 v ∧
          storage h2 mat_a = storage heap0 mat_a) ∧
    (∃ h1 B, copy_assign heap0 mat_b mat_a = Outcome.ok h1 B ∧
      B._rows = mat_a._rows ∧ B._cols = mat_a._cols ∧ valid h1 B ∧
      storage h1 B = storage heap0 mat_a ∧ storage h1 mat_a = storage heap0 mat_a ∧
      ∀ r c v, r < B._rows → c < B._cols →
        ∃ h2, B.operator_call_assign h1 r c v = Outcome.ok h2 () ∧
          B.operator_call h2 r c = Outcome.ok h2 v ∧
          storage h2 mat_a = storage heap0 mat_a) :=
  ⟨by decide, by decide,
    copy_independent heap0 mat_a mat_b (by decide) (by decide) (by decide)⟩

/-- C8: move construction from `A` yields an object with the row count, column
count and buffer of `A`, and leaves `A` as the empty matrix (0 rows, 0 columns,
null buffer, empty storage). Move assignment to a valid matrix `T` with a
buffer of its own does the same and releases the old buffer of `T`: the new
value of `T` has the shape and the elements `A` had. -/
theorem move_leaves_source_empty (h : Heap) (A T : matrix) (hT : valid h T)
    (hd : T._data = none ∨ T._data ≠ A._data) :
    ((ctor_move A).1._rows = A._rows ∧ (ctor_move A).1._cols = A._cols ∧
      (ctor_move A).1._data = A._data ∧ storage h (ctor_move A).1 = storage h A ∧
      (ctor_move A).2._rows = 0 ∧ (ctor_move A).2._cols = 0 ∧
      (ctor_move A).2._data = none ∧ storage h (ctor_move A).2 = some []) ∧
    (∃ h1 B A1, move_assign h T A = Outcome.ok h1 (B, A1) ∧
      B._rows = A._rows ∧ B._cols = A._cols ∧ storage h1 B = storage h A ∧
      A1._rows = 0 ∧ A1._cols = 0 ∧ A1._data = none ∧ storage h1 A1 = some []) := by
  refine ⟨⟨rfl, rfl, rfl, rfl, rfl, rfl, rfl, rfl⟩, ?_⟩
  obtain ⟨h1, hrun, hframe⟩ := dtor_spec hT
  refine ⟨h1, A, ctor, ?_, rfl, rfl, hframe A hd, rfl, rfl, rfl, rfl⟩
  unfold move_assign operator_assign
  show (Outcome.bind (dtor h T) _).bind _ = _
  rw [hrun, Outcome.bind_ok, Outcome.bind_ok]
  rfl

/-- Witness for C8: moving `[[1,2],[3,4]]` into `[[5,6],[7,8]]`. -/
theorem move_leaves_source_empty_witness :
    valid heap0 mat_b ∧
    ((ctor_move mat_a).1._rows = mat_a._rows ∧ (ctor_move mat_a).1._cols = mat_a._cols ∧
      (ctor_move mat_a).1._data = mat_a._data ∧
      storage heap0 (ctor_move mat_a).1 = storage heap0 mat_a ∧
      (ctor_move mat_a).2._rows = 0 ∧ (ctor_move mat_a).2._cols = 0 ∧
      (ctor_move mat_a).2._data = none ∧ storage heap0 (ctor_move mat_a).2 = some []) ∧
    (∃ h1 B A1, move_assign heap0 mat_b mat_a = Outcome.ok h1 (B, A1) ∧
      B._rows = mat_a._rows ∧ B._cols = mat_a._cols ∧
      storage h1 B = storage heap0 mat_a ∧
      A1._rows = 0 ∧ A1._cols = 0 ∧ A1._data = none ∧ storage h1 A1 = some []) :=
  ⟨by decide, move_leaves_source_empty heap0 mat_a mat_b (by decide) (by decide)⟩

/-- C9: the fill assignment `A = v` on a valid matrix returns `*this` with the
row and column counts it had, and afterwards the buffer is `rows * cols` copies
of `v`, so every in-range element reads `v`; on a matrix with no elements the
heap is unchanged; buffers of other matrices are not touched. Filling a 2x2
matrix with 0 gives the storage `[0, 0, 0, 0]`. -/
theorem fill_assign_correct (h : Heap) (A : matrix) (v : Int) (hA : valid h A) :
    ∃ h1, operator_assign_fill h A v = Outcome.ok h1 A ∧ valid h1 A ∧
      storage h1 A = some (List.replicate (A._rows * A._cols) v) ∧
      (∀ i j, i < A._rows → j < A._cols → A.operator_call h1 i j = Outcome.ok h1 v) ∧
      (A._rows * A._cols = 0 → h1 = h) ∧
      (∀ m : matrix, m._data ≠ A._data → storage h1 m = storage h m) ∧
      (A._rows = 2 → A._cols = 2 → v = 0 → storage h1 A = some [0, 0, 0, 0]) := by
  obtain ⟨h1, hrun, hs, hzero, hframe⟩ := operator_assign_fill_eq hA v
  have hv : valid h1 A := (valid_iff _ _).2 ⟨_, hs, by simp⟩
  refine ⟨h1, hrun, hv, hs, ?_, hzero, hframe, ?_⟩
  · intro i j hi hj
    rw [operator_call_eq hv hi hj, entry_eq hs, List.getElem?_replicate,
      if_pos (index_lt hi hj)]
    rfl
  · intro h2 hc2 hv0
    rw [hs, h2, hc2, hv0]
    rfl

/-- Witness for C9: filling `[[1,2],[3,4]]` with 0. -/
theorem fill_assign_correct_witness :
    valid heap0 mat_a ∧
    ∃ h1, operator_assign_fill heap0 mat_a 0 = Outcome.ok h1 mat_a ∧ valid h1 mat_a ∧
      storage h1 mat_a = some (List.replicate (mat_a._rows * mat_a._cols) 0) ∧
      (∀ i j, i < mat_a._rows → j < mat_a._cols →
        mat_a.operator_call h1 i j = Outcome.ok h1 0) ∧
      (mat_a._rows * mat_a._cols = 0 → h1 = heap0) ∧
      (∀ m : matrix, m._data ≠ mat_a._data → storage h1 m = storage heap0 m) ∧
      (mat_a._rows = 2 → mat_a._cols = 2 → (0 : Int) = 0 →
        storage h1 mat_a = some [0, 0, 0, 0]) :=
  ⟨by decide, fill_assign_correct heap0 mat_a 0 (by decide)⟩

/-- C10: for a non-empty literal whose inner sequences all have length `C`, the
literal constructor returns normally with `rows` = the outer length and `cols`
= `C`, the length of the first inner sequence; the result satisfies the storage
invariant, element `(r, c)` is the `c`-th value of the `r`-th inner sequence,
and every offset it writes lies inside the `rows * cols` buffer (a write at an
offset outside it is undefined behaviour in the embedding). -/
theorem ctor_list_uniform (h : Heap) (list : List (List Int)) (C : Nat) (hne : list ≠ [])
    (huni : ∀ x ∈ list, x.length = C) :
    ∃ h1 m, ctor_list h list = Outcome.ok h1 m ∧
      m._rows = list.length ∧ m._cols = C ∧
      (∀ first, list.head? = some first → m._cols = first.length) ∧
      valid h1 m ∧ storage h1 m = some list.flatten ∧
      (∀ r c row v, list[r]? = some row → row[c]? = some v →
        m.operator_call h1 r c = Outcome.ok h1 v) ∧
      (∀ r c row, list[r]? = some row → c < row.length →
        r * m._cols + c < m._rows * m._cols) ∧
      (∀ n v, m._rows * m._cols ≤ n → h1.store m._data n v = Outcome.ub) := by
  cases list with
  | nil => exact absurd rfl hne
  | cons first tail =>
    have hC : first.length = C := huni first (List.mem_cons_self _ _)
    subst hC
    have hlen := length_flatten_uniform (first :: tail) huni
    have hs := storage_new h (first :: tail).flatten (first :: tail).length first.length
    have hv : valid (h.push (first :: tail).flatten)
        ⟨(first :: tail).length, first.length, some h.cells.length⟩ :=
      (valid_iff _ _).2 ⟨_, hs, hlen⟩
    have hrow : ∀ r row, (first :: tail)[r]? = some row →
        r < (first :: tail).length ∧ row.length = first.length := by
      intro r row hr
      have hr' := hr
      rw [List.getElem?_eq_some] at hr'
      obtain ⟨hlt, hget⟩ := hr'
      exact ⟨hlt, huni row (by rw [← hget]; exact List.getElem_mem _)⟩
    refine ⟨_, _, ctor_list_eq huni, rfl, rfl, ?_, hv, hs, ?_, ?_, ?_⟩
    · intro f hf
      simp only [List.head?_cons, Option.some.injEq] at hf
      rw [← hf]
    · intro r c row v hr hc
      obtain ⟨hlt, hrl⟩ := hrow r row hr
      have hcl : c < first.length := by
        rw [← hrl]
        by_contra hge
        rw [List.getElem?_eq_none (by omega)] at hc
        cases hc
      rw [operator_call_eq hv hlt hcl, entry_eq hs]
      show Outcome.ok _ (((first :: tail).flatten[r * first.length + c]?).getD 0) = _
      rw [getElem?_flatten_uniform (first :: tail) huni r c row hr hcl, hc]
      rfl
    · intro r c row hr hc
      obtain ⟨hlt, hrl⟩ := hrow r row hr
      exact index_lt hlt (by rw [← hrl]; exact hc)
    · intro n v hn
      show (h.push (first :: tail).flatten).store (some h.cells.length) n v = Outcome.ub
      unfold Heap.store
      simp only [Heap.block_push_new]
      rw [if_neg (by rw [hlen]; exact Nat.not_lt.2 hn)]

/-- Witness for C10 on the literal `[[1,2],[3,4]]`. -/
theorem ctor_list_uniform_witness :
    ([[1, 2], [3, 4]] : List (List Int)) ≠ [] ∧
    (∀ x ∈ ([[1, 2], [3, 4]] : List (List Int)), x.length = 2) ∧
    ∃ h1 m, ctor_list heap0 [[1, 2], [3, 4]] = Outcome.ok h1 m ∧
      m._rows = ([[1, 2], [3, 4]] : List (List Int)).length ∧ m._cols = 2 ∧
      (∀ first, ([[1, 2], [3, 4]] : List (List Int)).head? = some first →
        m._cols = first.length) ∧
      valid h1 m ∧ storage h1 m = some ([[1, 2], [3, 4]] : List (List Int)).flatten ∧
      (∀ r c row v, ([[1, 2], [3, 4]] : List (List Int))[r]? = some row → row[c]? = some v →
        m.operator_call h1 r c = Outcome.ok h1 v) ∧
      (∀ r c row, ([[1, 2], [3, 4]] : List (List Int))[r]? = some row → c < row.length →
        r * m._cols + c < m._rows * m._cols) ∧
      (∀ n v, m._rows * m._cols ≤ n → h1.store m._data n v = Outcome.ub) :=
  ⟨by decide, by decide,
    ctor_list_uniform heap0 [[1, 2], [3, 4]] 2 (by decide) (by decide)⟩

/-- C11, counterexample: `matrix(2^32, 2^32)` computes the element count
`2^32 * 2^32` in `size_t`, which wraps around to 0: the constructed matrix has
`rows = cols = 2^32` and an empty buffer, so `storage.length == rows*cols`
fails. The product of the valid matrices of shapes `2^32 x 0` and `0 x 2^32`
is built by that constructor, and `operator*` and `operator*=` end in an
out-of-bounds store instead of a matrix that satisfies the invariant. -/
theorem ctor_sized_wraps :
    (∃ h1 m, ctor_sized heap0 (2 ^ 32) (2 ^ 32) = Outcome.ok h1 m ∧
      m._rows = 2 ^ 32 ∧ m._cols = 2 ^ 32 ∧ storage h1 m = some [] ∧ ¬ valid h1 m) ∧
    valid heap_wrap mat_tall ∧ valid heap_wrap mat_wide ∧ mat_tall._cols = mat_wide._rows ∧
    operator_mul heap_wrap mat_tall mat_wide = Outcome.ub ∧
    operator_mul_assign heap_wrap mat_tall mat_wide = Outcome.ub := by
  have hub : operator_mul heap_wrap mat_tall mat_wide = Outcome.ub :=
    operator_mul_wrapped heap_wrap 4294967295 4294967295 _ _ (by decide)
  refine ⟨⟨_, _, rfl, rfl, rfl, by decide, by decide⟩, by decide, by decide, by decide,
    hub, ?_⟩
  unfold operator_mul_assign
  rw [hub]
  rfl

/-- C11, amended: the invariant `storage.length == rows*cols` (on live
storage) holds for the default matrix, for the matrix the sized constructor
returns when `rows * cols < 2^64`, and for every matrix the literal
constructor returns; and for valid `A`, `B` it holds again after copy
construction, move construction, swap, copy and move assignment (target and
source with separate buffers), fill assignment, `+=`, `+`, in-range element
assignment, and after `*` and `*=` when the product has fewer than `2^64`
elements, on the normal exit and on the dimension-mismatch exit alike. -/
theorem storage_invariant (h : Heap) (A B : matrix) (hA : valid h A) (hB : valid h B) :
    valid h ctor ∧
    (∀ rows cols, rows * cols < size_modulus →
      ∃ h1 m, ctor_sized h rows cols = Outcome.ok h1 m ∧ valid h1 m ∧ valid h1 A) ∧
    (∀ list h1 m, ctor_list h list = Outcome.ok h1 m → valid h1 m ∧ valid h1 A) ∧
    (∃ h1 C, ctor_copy h A = Outcome.ok h1 C ∧ valid h1 C ∧ valid h1 A) ∧
    (valid h (ctor_move A).1 ∧ valid h (ctor_move A).2) ∧
    (valid h (swap A B).1 ∧ valid h (swap A B).2) ∧
    ((A._data = none ∨ A._data ≠ B._data) →
      (∃ h1 A1, copy_assign h A B = Outcome.ok h1 A1 ∧ valid h1 A1 ∧ valid h1 B) ∧
      (∃ h1 A1 B1, move_assign h A B = Outcome.ok h1 (A1, B1) ∧ valid h1 A1 ∧ valid h1 B1)) ∧
    (∀ v, ∃ h1 A1, operator_assign_fill h A v = Outcome.ok h1 A1 ∧ valid h1 A1) ∧
    ((A._rows = B._rows ∧ A._cols = B._cols) →
      (∃ h1 A1, operator_add_assign h A B = Outcome.ok h1 A1 ∧ valid h1 A1 ∧ valid h1 B) ∧
      (∃ h1 S, operator_add h A B = Outcome.ok h1 S ∧ valid h1 S ∧ valid h1 A ∧ valid h1 B)) ∧
    (∀ h1, operator_add_assign h A B = Outcome.throw h1 → valid h1 A ∧ valid h1 B) ∧
    (∀ h1, operator_add h A B = Outcome.throw h1 → valid h1 A ∧ valid h1 B) ∧
    (A._cols = B._rows → A._rows * B._cols < size_modulus →
      (∃ h1 P, operator_mul h A B = Outcome.ok h1 P ∧ valid h1 P ∧ valid h1 A ∧ valid h1 B) ∧
      (∃ h1 A1, operator_mul_assign h A B = Outcome.ok h1 A1 ∧ valid h1 A1 ∧
        ((A._data = none ∨ A._data ≠ B._data) → valid h1 B))) ∧
    (∀ h1, operator_mul h A B = Outcome.throw h1 → valid h1 A ∧ valid h1 B) ∧
    (∀ h1, operator_mul_assign h A B = Outcome.throw h1 → valid h1 A ∧ valid h1 B) ∧
    (∀ r c v, r < A._rows → c < A._cols →
      ∃ h1, A.operator_call_assign h r c v = Outcome.ok h1 () ∧ valid h1 A) := by
  obtain ⟨bufA, hsA, hlA⟩ := (valid_iff h A).1 hA
  obtain ⟨bufB, hsB, hlB⟩ := (valid_iff h B).1 hB
  refine ⟨valid_ctor h, ?_, ?_, ?_, ⟨hA, valid_ctor h⟩, ⟨hB, hA⟩, ?_, ?_, ?_, ?_, ?_, ?_,
    ?_, ?_, ?_⟩
  · intro rows cols hfit
    obtain ⟨h1, m, hrun, _, _, hv, hframe⟩ := ctor_sized_post h rows cols hfit
    exact ⟨h1, m, hrun, hv, (hframe A hA).1⟩
  · intro list h1 m e
    obtain ⟨hv, _, _, hframe⟩ := ctor_list_valid e
    exact ⟨hv, (hframe A hA).1⟩
  · exact ⟨_, _, ctor_copy_eq hsA hlA, valid_new h bufA _ _ hlA, valid_push bufA hA⟩
  · intro hsep
    constructor
    · obtain ⟨h1, hrun, hs1, hs2⟩ := copy_assign_eq hB hA hsep
      exact ⟨h1, _, hrun, (valid_iff _ _).2 ⟨bufB, by rw [hs1, hsB], hlB⟩,
        valid_of_storage_eq hs2 hB⟩
    · obtain ⟨h1, hrun, hframe⟩ := @operator_assign_post h A (ctor_move B).1 hA
      refine ⟨h1, (ctor_move B).1, (ctor_move B).2, ?_,
        valid_of_storage_eq (hframe B hsep) hB, valid_ctor h1⟩
      unfold move_assign
      rw [hrun, Outcome.bind_ok]
  · intro v
    obtain ⟨h1, hrun, hs, _, _⟩ := operator_assign_fill_eq hA v
    exact ⟨h1, A, hrun, (valid_iff _ _).2 ⟨_, hs, by simp⟩⟩
  · rintro ⟨hr, hc⟩
    constructor
    · obtain ⟨h1, hrun, hv1, hv2, _, _⟩ := operator_add_assign_post hA hB hr hc
      exact ⟨h1, A, hrun, hv1, hv2⟩
    · obtain ⟨S, hrun, hSl, _⟩ := operator_add_eq hA hB hr hc
      exact ⟨_, _, hrun, valid_new h S _ _ hSl, valid_push S hA, valid_push S hB⟩
  · intro h1 e
    rw [((operator_add_assign_throw_iff h A B h1).1 e).2]
    exact ⟨hA, hB⟩
  · intro h1 e
    obtain ⟨_, buf, _, rfl⟩ := (operator_add_throw_iff hA B h1).1 e
    exact ⟨valid_of_storage_eq (storage_congr (block_push_delete h buf) A) hA,
      valid_of_storage_eq (storage_congr (block_push_delete h buf) B) hB⟩
  · intro hK hfit
    constructor
    · obtain ⟨P, hrun, hv, _⟩ := operator_mul_spec hA hB hK hfit
      exact ⟨_, _, hrun, hv, valid_push P hA, valid_push P hB⟩
    · obtain ⟨P, h2, _, hrun, hPl, hs, _, hframe⟩ := operator_mul_assign_eq hA hB hK hfit
      exact ⟨h2, _, hrun, (valid_iff _ _).2 ⟨P, hs, hPl⟩,
        fun hsep => valid_of_storage_eq (hframe B hB hsep) hB⟩
  · intro h1 e
    rw [((operator_mul_throw_iff h A B h1).1 e).2]
    exact ⟨hA, hB⟩
  · intro h1 e
    rw [((operator_mul_assign_throw_iff h A B h1).1 e).2]
    exact ⟨hA, hB⟩
  · intro r c v hr hc
    obtain ⟨h1, hrun, hv, _, _⟩ := operator_call_assign_post hA hr hc v
    exact ⟨h1, hrun, hv⟩

/-- Witness for the amended C11 on `[[1,2],[3,4]]` and `[[5,6],[7,8]]`. -/
theorem storage_invariant_witness :
    valid heap0 mat_a ∧ valid heap0 mat_b ∧
    (∃ h1 C, ctor_copy heap0 mat_a = Outcome.ok h1 C ∧ valid h1 C ∧ valid h1 mat_a) ∧
    (mat_a._cols = mat_b._rows → mat_a._rows * mat_b._cols < size_modulus →
      (∃ h1 P, operator_mul heap0 mat_a mat_b = Outcome.ok h1 P ∧ valid h1 P ∧
        valid h1 mat_a ∧ valid h1 mat_b) ∧
      (∃ h1 A1, operator_mul_assign heap0 mat_a mat_b = Outcome.ok h1 A1 ∧ valid h1 A1 ∧
        ((mat_a._data = none ∨ mat_a._data ≠ mat_b._data) → valid h1 mat_b))) :=
  ⟨by decide, by decide,
    (storage_invariant heap0 mat_a mat_b (by decide) (by decide)).2.2.2.1,
    (storage_invariant heap0 mat_a mat_b (by decide) (by decide)).2.2.2.2.2.2.2.2.2.2.2.1⟩

/-- C13: at an in-range position `(r, c)` of a valid matrix both accessors use
the linear offset `r * cols + c` of the buffer behind `_data`; that offset is
below `rows * cols`, and two in-range positions with the same offset are the
same position. Assigning `v` at `(r, c)` returns normally, keeps the invariant
(the row and column counts are not assigned), makes `(r, c)` read `v`, and
every other in-range position reads the value it held before. -/
theorem accessor_offsets (h : Heap) (m : matrix) (r c : Nat) (v : Int) (hv : valid h m)
    (hr : r < m._rows) (hc : c < m._cols) :
    m.operator_call h r c = h.load m._data (r * m._cols + c) ∧
    m.operator_call_assign h r c v = h.store m._data (r * m._cols + c) v ∧
    r * m._cols + c < m._rows * m._cols ∧
    (∀ r1 c1, r1 < m._rows → c1 < m._cols →
      r1 * m._cols + c1 = r * m._cols + c → r1 = r ∧ c1 = c) ∧
    ∃ h1, m.operator_call_assign h r c v = Outcome.ok h1 () ∧ valid h1 m ∧
      m.operator_call h1 r c = Outcome.ok h1 v ∧
      ∀ r1 c1, r1 < m._rows → c1 < m._cols → (r1 ≠ r ∨ c1 ≠ c) →
        ∃ w, m.operator_call h r1 c1 = Outcome.ok h w ∧
          m.operator_call h1 r1 c1 = Outcome.ok h1 w := by
  refine ⟨rfl, rfl, index_lt hr hc, fun r1 c1 _ hc1 e => index_inj hc hc1 e, ?_⟩
  obtain ⟨a, b, hd, hb, hl, hrun⟩ := operator_call_assign_spec hv hr hc v
  obtain ⟨h1, hrun1, hv1, hread, _⟩ := operator_call_assign_post hv hr hc v
  have hh : h1 = h.upd a (b.set (r * m._cols + c) v) := by
    rw [hrun] at hrun1
    injection hrun1 with e
    exact e.symm
  have hs : storage h m = some b := by unfold storage; rw [hd]; exact hb
  have hs1 : storage h1 m = some (b.set (r * m._cols + c) v) := by
    rw [hh]; unfold storage; rw [hd]
    exact Heap.block_upd_same _ (Heap.block_some_lt hb)
  refine ⟨h1, hrun1, hv1, hread, ?_⟩
  intro r1 c1 hr1 hc1 hne
  refine ⟨entry h m r1 c1, operator_call_eq hv hr1 hc1, ?_⟩
  rw [operator_call_eq hv1 hr1 hc1, entry_eq hs1, entry_eq hs]
  have hoff : r * m._cols + c ≠ r1 * m._cols + c1 := by
    intro e
    obtain ⟨e1, e2⟩ := index_inj hc hc1 e.symm
    rcases hne with hne | hne
    · exact hne e1
    · exact hne e2
  rw [List.getElem?_set_ne hoff]

/-- Witness for C13: writing 9 at position (1, 0) of `[[1,2],[3,4]]`. -/
theorem accessor_offsets_witness :
    valid heap0 mat_a ∧ 1 < mat_a._rows ∧ 0 < mat_a._cols ∧
    (mat_a.operator_call heap0 1 0 = heap0.load mat_a._data (1 * mat_a._cols + 0) ∧
    mat_a.operator_call_assign heap0 1 0 9 = heap0.store mat_a._data (1 * mat_a._cols + 0) 9 ∧
    1 * mat_a._cols + 0 < mat_a._rows * mat_a._cols ∧
    (∀ r1 c1, r1 < mat_a._rows → c1 < mat_a._cols →
      r1 * mat_a._cols + c1 = 1 * mat_a._cols + 0 → r1 = 1 ∧ c1 = 0) ∧
    ∃ h1, mat_a.operator_call_assign heap0 1 0 9 = Outcome.ok h1 () ∧ valid h1 mat_a ∧
      mat_a.operator_call h1 1 0 = Outcome.ok h1 9 ∧
      ∀ r1 c1, r1 < mat_a._rows → c1 < mat_a._cols → (r1 ≠ 1 ∨ c1 ≠ 0) →
        ∃ w, mat_a.operator_call heap0 r1 c1 = Outcome.ok heap0 w ∧
          mat_a.operator_call h1 r1 c1 = Outcome.ok h1 w) :=
  ⟨by decide, by decide, by decide,
    accessor_offsets heap0 mat_a 1 0 9 (by decide) (by decide) (by decide)⟩

/-- C14, counterexample: for the 2x2 matrix `[[1,2],[3,4]]` the member function
returns `1 2 \n3 4 \nRows: 2, cols: 2\n`, with a space after the last element
of each row, which is not the text with the elements merely separated by
single spaces. -/
theorem to_string_not_separated :
    valid heap0 mat_a ∧
    ∃ out, to_string heap0 mat_a = Outcome.ok heap0 out ∧
      out = "1 2 \n3 4 \nRows: 2, cols: 2\n".toList ∧
      spec_to_string (rows_of heap0 mat_a) mat_a._rows mat_a._cols
        = "1 2\n3 4\nRows: 2, cols: 2\n".toList ∧
      out ≠ spec_to_string (rows_of heap0 mat_a) mat_a._rows mat_a._cols :=
  ⟨by decide, _, rfl, rfl, by decide, by decide⟩

/-- C14, amended: for a valid R x C matrix `to_string` returns, without
touching the heap, one line per row in row order, each made of that row's
element texts each followed by a single space and terminated by a newline,
then the line `Rows: R, cols: C` terminated by a newline; the text holds
exactly R + 1 newline characters, one at the end of each line. -/
theorem to_string_format (h : Heap) (m : matrix) (hv : valid h m) :
    ∃ out, to_string h m = Outcome.ok h out ∧
      out = ((rows_of h m).map row_line).flatten ++ dims_line m._rows m._cols ∧
      (rows_of h m).length = m._rows ∧
      (∀ r, r < m._rows →
        (rows_of h m)[r]? = some ((List.range m._cols).map fun c => entry h m r c)) ∧
      (∀ row : List Int,
        row_line row = (row.map fun x => int_text x ++ [' ']).flatten ++ ['\n'] ∧
        (row_line row).count '\n' = 1) ∧
      dims_line m._rows m._cols
        = "Rows: ".toList ++ size_text m._rows ++ ", cols: ".toList ++ size_text m._cols
            ++ ['\n'] ∧
      (dims_line m._rows m._cols).count '\n' = 1 ∧
      out.count '\n' = m._rows + 1 := by
  have hlen : (rows_of h m).length = m._rows := by simp [rows_of]
  refine ⟨_, to_string_eq hv, rfl, hlen, ?_, fun row => ⟨rfl, count_row_line row⟩, rfl,
    count_dims_line _ _, ?_⟩
  · intro r hr
    simp [rows_of, List.getElem?_range, hr]
  · rw [List.count_append, count_row_lines, count_dims_line, hlen]

/-- Witness for the amended C14 on `[[1,2],[3,4]]`. -/
theorem to_string_format_witness :
    valid heap0 mat_a ∧
    ∃ out, to_string heap0 mat_a = Outcome.ok heap0 out ∧
      out = ((rows_of heap0 mat_a).map row_line).flatten
        ++ dims_line mat_a._rows mat_a._cols ∧
      (rows_of heap0 mat_a).length = mat_a._rows ∧
      (∀ r, r < mat_a._rows →
        (rows_of heap0 mat_a)[r]?
          = some ((List.range mat_a._cols).map fun c => entry heap0 mat_a r c)) ∧
      (∀ row : List Int,
        row_line row = (row.map fun x => int_text x ++ [' ']).flatten ++ ['\n'] ∧
        (row_line row).count '\n' = 1) ∧
      dims_line mat_a._rows mat_a._cols
        = "Rows: ".toList ++ size_text mat_a._rows ++ ", cols: ".toList
            ++ size_text mat_a._cols ++ ['\n'] ∧
      (dims_line mat_a._rows mat_a._cols).count '\n' = 1 ∧
      out.count '\n' = mat_a._rows + 1 :=
  ⟨by decide, to_string_format heap0 mat_a (by decide)⟩

/-- C15: in any heap, with `A` built from the literal `[[1,2],[3,4]]` and `B`
from `[[5,6],[7,8]]`, `A + B` has the buffer `[6, 8, 10, 12]` and equals the
matrix built from `[[6,8],[10,12]]`, and `A * B` has the buffer
`[19, 22, 43, 50]` and equals the matrix built from `[[19,22],[43,50]]`: same
shape and same buffer contents, both matrices satisfying the invariant. -/
theorem scenario_two_by_two (h : Heap) :
    ∃ h1 A h2 B, ctor_list h [[1, 2], [3, 4]] = Outcome.ok h1 A ∧
      ctor_list h1 [[5, 6], [7, 8]] = Outcome.ok h2 B ∧
      (∃ h3 S h4 E, operator_add h2 A B = Outcome.ok h3 S ∧
        ctor_list h3 [[6, 8], [10, 12]] = Outcome.ok h4 E ∧
        S._rows = E._rows ∧ S._cols = E._cols ∧ valid h4 S ∧ valid h4 E ∧
        storage h4 S = storage h4 E ∧ storage h4 S = some [6, 8, 10, 12]) ∧
      (∃ h3 P h4 E, operator_mul h2 A B = Outcome.ok h3 P ∧
        ctor_list h3 [[19, 22], [43, 50]] = Outcome.ok h4 E ∧
        P._rows = E._rows ∧ P._cols = E._cols ∧ valid h4 P ∧ valid h4 E ∧
        storage h4 P = storage h4 E ∧ storage h4 P = some [19, 22, 43, 50]) := by
  have huA : ∀ x ∈ ([[1, 2], [3, 4]] : List (List Int)), x.length = [(1 : Int), 2].length := by
    decide
  have huB : ∀ x ∈ ([[5, 6], [7, 8]] : List (List Int)), x.length = [(5 : Int), 6].length := by
    decide
  have hrunA := @ctor_list_eq h [1, 2] [[3, 4]] huA
  have hrunB := @ctor_list_eq (h.push [1, 2, 3, 4]) [5, 6] [[7, 8]] huB
  have hsA : storage ((h.push [1, 2, 3, 4]).push [5, 6, 7, 8]) ⟨2, 2, some h.cells.length⟩
      = some [1, 2, 3, 4] := storage_push _ (storage_new h _ _ _)
  have hsB : storage ((h.push [1, 2, 3, 4]).push [5, 6, 7, 8])
      ⟨2, 2, some (h.push [1, 2, 3, 4]).cells.length⟩ = some [5, 6, 7, 8] :=
    storage_new _ _ _ _
  have hvA : valid ((h.push [1, 2, 3, 4]).push [5, 6, 7, 8]) ⟨2, 2, some h.cells.length⟩ :=
    valid_push _ (valid_new h _ 2 2 rfl)
  have hvB : valid ((h.push [1, 2, 3, 4]).push [5, 6, 7, 8])
      ⟨2, 2, some (h.push [1, 2, 3, 4]).cells.length⟩ := valid_new _ _ 2 2 rfl
  refine ⟨_, _, _, _, hrunA, hrunB, ?_, ?_⟩
  · obtain ⟨S, hrun, hSl, hS⟩ := operator_add_eq hvA hvB rfl rfl
    have e : ∀ i j, i < 2 → j < 2 → S[i * 2 + j]?
        = some ((([1, 2, 3, 4] : List Int)[i * 2 + j]?).getD 0
            + (([5, 6, 7, 8] : List Int)[i * 2 + j]?).getD 0) := by
      intro i j hi hj
      rw [hS i j hi hj, entry_eq hsA, entry_eq hsB]
    have hSeq : S = [6, 8, 10, 12] :=
      list_eq_four hSl (e 0 0 (by decide) (by decide)) (e 0 1 (by decide) (by decide))
        (e 1 0 (by decide) (by decide)) (e 1 1 (by decide) (by decide))
    subst hSeq
    obtain ⟨h4, E, hrunE, hr, hc, hvE, hvS, hst, hst2⟩ :=
      equals_literal (valid_new ((h.push [1, 2, 3, 4]).push [5, 6, 7, 8]) [6, 8, 10, 12] 2 2 rfl)
        rfl rfl (storage_new _ [6, 8, 10, 12] 2 2)
    exact ⟨_, _, h4, E, hrun, hrunE, hr, hc, hvS, hvE, hst, hst2⟩
  · have hfit : (2 : Nat) * 2 < size_modulus := by decide
    obtain ⟨P, hrun, hPl, hP⟩ := operator_mul_eq hvA hvB rfl hfit
    have e : ∀ i j, i < 2 → j < 2 → P[i * 2 + j]?
        = some ((([1, 2, 3, 4] : List Int)[i * 2 + 0]?).getD 0
              * (([5, 6, 7, 8] : List Int)[0 * 2 + j]?).getD 0
            + (([1, 2, 3, 4] : List Int)[i * 2 + 1]?).getD 0
              * (([5, 6, 7, 8] : List Int)[1 * 2 + j]?).getD 0) := by
      intro i j hi hj
      rw [hP i j hi hj]
      show some (∑ k ∈ Finset.range 2, _) = _
      rw [Finset.sum_range_succ, Finset.sum_range_succ, Finset.sum_range_zero, Int.zero_add,
        entry_eq hsA, entry_eq hsA, entry_eq hsB, entry_eq hsB]
    have hPeq : P = [19, 22, 43, 50] :=
      list_eq_four hPl (e 0 0 (by decide) (by decide)) (e 0 1 (by decide) (by decide))
        (e 1 0 (by decide) (by decide)) (e 1 1 (by decide) (by decide))
    subst hPeq
    obtain ⟨h4, E, hrunE, hr, hc, hvE, hvP, hst, hst2⟩ :=
      equals_literal
        (valid_new ((h.push [1, 2, 3, 4]).push [5, 6, 7, 8]) [19, 22, 43, 50] 2 2 rfl)
        rfl rfl (storage_new _ [19, 22, 43, 50] 2 2)
    exact ⟨_, _, h4, E, hrun, hrunE, hr, hc, hvP, hvE, hst, hst2⟩

/-- C16, counterexample: two 2x3 matrices have `A.cols = 3 != 2 = B.rows`, yet
their shapes agree and both `A + B` and `A += B` return normally instead of
throwing. -/
theorem add_cols_rows_counterexample :
    valid heap0 mat_c ∧ valid heap0 mat_d ∧ mat_c._cols ≠ mat_d._rows ∧
    (∃ h1 S, operator_add heap0 mat_c mat_d = Outcome.ok h1 S ∧
      storage h1 S = some [7, 7, 7, 7, 7, 7]) ∧
    (∃ h1, operator_add_assign heap0 mat_c mat_d = Outcome.ok h1 mat_c) ∧
    (¬ ∃ h1, operator_add heap0 mat_c mat_d = Outcome.throw h1) ∧
    (¬ ∃ h1, operator_add_assign heap0 mat_c mat_d = Outcome.throw h1) := by
  refine ⟨by decide, by decide, by decide, ⟨_, _, rfl, rfl⟩, ⟨_, rfl⟩, ?_, ?_⟩
  · rintro ⟨h1, e⟩
    exact absurd ((operator_add_throw_iff (by decide) mat_d h1).1 e).1 (by decide)
  · rintro ⟨h1, e⟩
    exact absurd ((operator_add_assign_throw_iff heap0 mat_c mat_d h1).1 e).1 (by decide)

/-- C16, amended: for a valid `A` and any `B` whose shape differs from that of
`A` (row counts or column counts differ), `A += B` throws the
dimension-mismatch error with the heap unchanged, and `A + B` throws it with
every matrix seeing the storage it saw before the call. -/
theorem add_mismatched_shape (h : Heap) (A B : matrix) (hA : valid h A)
    (hm : A._rows ≠ B._rows ∨ A._cols ≠ B._cols) :
    operator_add_assign h A B = Outcome.throw h ∧
    ∃ h1, operator_add h A B = Outcome.throw h1 ∧
      (∀ m : matrix, storage h1 m = storage h m) ∧ valid h1 A ∧
      (valid h B → valid h1 B) := by
  obtain ⟨bufA, hsA, _⟩ := (valid_iff h A).1 hA
  refine ⟨(operator_add_assign_throw_iff h A B h).2 ⟨hm, rfl⟩, _,
    (operator_add_throw_iff hA B _).2 ⟨hm, bufA, hsA, rfl⟩, ?_, ?_, ?_⟩
  · exact fun m => storage_congr (block_push_delete h bufA) m
  · exact valid_of_storage_eq (storage_congr (block_push_delete h bufA) A) hA
  · exact fun hB => valid_of_storage_eq (storage_congr (block_push_delete h bufA) B) hB

/-- Witness for the amended C16: a 2x3 matrix plus a 2x2 matrix. -/
theorem add_mismatched_shape_witness :
    valid heap0 mat_c ∧ (mat_c._rows ≠ mat_a._rows ∨ mat_c._cols ≠ mat_a._cols) ∧
    operator_add_assign heap0 mat_c mat_a = Outcome.throw heap0 ∧
    ∃ h1, operator_add heap0 mat_c mat_a = Outcome.throw h1 ∧
      (∀ m : matrix, storage h1 m = storage heap0 m) ∧ valid h1 mat_c ∧
      (valid heap0 mat_a → valid h1 mat_a) :=
  ⟨by decide, by decide, add_mismatched_shape heap0 mat_c mat_a (by decide) (by decide)⟩

/-- C17, counterexample: the literal `[[1],[2,3,4],[5],[6]]` (C = 1, every
write inside the 4-element buffer) gives the storage `[1, 2, 5, 6]`. Row 1 is
not the last row and has more than C values; its value 4 at index 2 goes to
offset 3, and row 2 supplies no value at index 2 - C = 1, yet element
`(2, 1)`, that same offset, reads 6: row 3 has overwritten it. And the literal
`[[1],[2,3]]` writes its last value outside the 2-element buffer, which is
undefined behaviour rather than a constructed matrix. -/
theorem ctor_list_later_rows_overwrite :
    (∃ h1 m, ctor_list heap0 [[1], [2, 3, 4], [5], [6]] = Outcome.ok h1 m ∧
      m._rows = 4 ∧ m._cols = 1 ∧ storage h1 m = some [1, 2, 5, 6] ∧
      ([[1], [2, 3, 4], [5], [6]] : List (List Int))[1]? = some [2, 3, 4] ∧
      ([2, 3, 4] : List Int)[2]? = some 4 ∧
      ([[1], [2, 3, 4], [5], [6]] : List (List Int))[1 + 1]? = some [5] ∧
      ([5] : List Int)[2 - 1]? = none ∧
      m.operator_call h1 (1 + 1) (2 - 1) = Outcome.ok h1 6 ∧
      h1.load m._data (1 * 1 + 2) = Outcome.ok h1 6) ∧
    ctor_list heap0 [[1], [2, 3]] = Outcome.ub :=
  ⟨⟨_, _, rfl, rfl, rfl, rfl, rfl, rfl, rfl, rfl, rfl, rfl⟩, rfl⟩

/-- C17, amended: for a non-empty literal with first inner length C in which
every value's offset `r * C + c` lies inside the `rows * C` buffer, the literal
constructor returns normally with `rows` = the outer length and `cols` = C,
the invariant holds, and the `c`-th value of the `r`-th inner sequence is what
offset `r * C + c` holds at the end unless a later row supplies a value for
that offset; in particular, for `C <= c < 2 * C` it is read as element
`(r + 1, c - C)` unless row `r + 1` itself supplies a value at index `c - C`.
An offset no row writes keeps the indeterminate value of the fresh buffer. The
literal `[[1,2],[3,4,5,6],[7]]` yields the 3x2 matrix with storage
`[1, 2, 3, 4, 7, 6]`. -/
theorem ctor_list_ragged (h : Heap) (first : List Int) (tail : List (List Int))
    (hfit : ∀ r row, (first :: tail)[r]? = some row →
      r * first.length + row.length ≤ (first :: tail).length * first.length) :
    ∃ h1 m, ctor_list h (first :: tail) = Outcome.ok h1 m ∧
      m._rows = (first :: tail).length ∧ m._cols = first.length ∧ valid h1 m ∧
      (∀ r c row v, (first :: tail)[r]? = some row → row[c]? = some v →
        (∀ r1 row1, r < r1 → (first :: tail)[r1]? = some row1 →
          ¬ (r1 * first.length ≤ r * first.length + c ∧
            r * first.length + c < r1 * first.length + row1.length)) →
        h1.load m._data (r * m._cols + c) = Outcome.ok h1 v) ∧
      (∀ r c row v, (first :: tail)[r]? = some row → row[c]? = some v →
        first.length ≤ c → c < 2 * first.length →
        (∀ row1, (first :: tail)[r + 1]? = some row1 → row1[c - first.length]? = none) →
        m.operator_call h1 (r + 1) (c - first.length) = Outcome.ok h1 v) ∧
      (∀ o, o < m._rows * m._cols →
        (∀ r row, (first :: tail)[r]? = some row →
          ¬ (r * first.length ≤ o ∧ o < r * first.length + row.length)) →
        h1.load m._data o = Outcome.ok h1 (h.junk h.cells.length o)) ∧
      ctor_list h [[1, 2], [3, 4, 5, 6], [7]]
        = Outcome.ok (h.push [1, 2, 3, 4, 7, 6]) ⟨3, 2, some h.cells.length⟩ := by
  obtain ⟨P, hrun, hPl, hkeep, hval⟩ := ctor_list_fit_eq (h := h) hfit
  have hload : ∀ n v, P[n]? = some v →
      (h.push P).load (some h.cells.length) n = Outcome.ok (h.push P) v := by
    intro n v hn
    have hlt : n < P.length := by
      by_contra hge
      rw [List.getElem?_eq_none (by omega)] at hn
      cases hn
    rw [Heap.load_ok (Heap.block_push_new h P) hlt, hn]
    rfl
  have hA : ∀ r c row v, (first :: tail)[r]? = some row → row[c]? = some v →
      (∀ r1 row1, r < r1 → (first :: tail)[r1]? = some row1 →
        ¬ (r1 * first.length ≤ r * first.length + c ∧
          r * first.length + c < r1 * first.length + row1.length)) →
      (h.push P).load (some h.cells.length) (r * first.length + c)
        = Outcome.ok (h.push P) v :=
    fun r c row v hr hc hlater => hload _ v (hval r row c v hr hc hlater)
  refine ⟨h.push P, ⟨(first :: tail).length, first.length, some h.cells.length⟩, hrun, rfl,
    rfl, valid_new h P _ _ hPl, hA, ?_, ?_, ctor_list_example h⟩
  · intro r c row v hr hc hC h2C hnext
    have hoff : (r + 1) * first.length + (c - first.length) = r * first.length + c := by
      rw [Nat.add_mul, Nat.one_mul]
      omega
    show (h.push P).load (some h.cells.length) ((r + 1) * first.length + (c - first.length)) = _
    rw [hoff]
    apply hA r c row v hr hc
    intro r1 row1 hlt hr1
    by_cases h1 : r1 = r + 1
    · subst h1
      have hnone := hnext row1 hr1
      have hlen : row1.length ≤ c - first.length := by
        by_contra hlt2
        rw [List.getElem?_eq_getElem (by omega)] at hnone
        cases hnone
      rw [Nat.add_mul, Nat.one_mul]
      omega
    · have hge : (r + 2) * first.length ≤ r1 * first.length :=
        Nat.mul_le_mul_right _ (by omega)
      rw [Nat.add_mul] at hge
      omega
  · intro o ho hno
    have hjunk : P[o]? = some (h.junk h.cells.length o) := by
      rw [hkeep o hno, List.getElem?_map, List.getElem?_range ho]
      rfl
    exact hload o _ hjunk

/-- Witness for the amended C17 on `[[1,2],[3,4,5,6],[7]]`. -/
theorem ctor_list_ragged_witness :
    ∃ h1 m, ctor_list heap0 ([1, 2] :: [[3, 4, 5, 6], [7]]) = Outcome.ok h1 m ∧
      m._rows = ([1, 2] :: [[3, 4, 5, 6], [7]] : List (List Int)).length ∧
      m._cols = ([1, 2] : List Int).length ∧ valid h1 m ∧
      (∀ r c row v, ([1, 2] :: [[3, 4, 5, 6], [7]] : List (List Int))[r]? = some row →
        row[c]? = some v →
        (∀ r1 row1, r < r1 →
          ([1, 2] :: [[3, 4, 5, 6], [7]] : List (List Int))[r1]? = some row1 →
          ¬ (r1 * ([1, 2] : List Int).length ≤ r * ([1, 2] : List Int).length + c ∧
            r * ([1, 2] : List Int).length + c
              < r1 * ([1, 2] : List Int).length + row1.length)) →
        h1.load m._data (r * m._cols + c) = Outcome.ok h1 v) ∧
      (∀ r c row v, ([1, 2] :: [[3, 4, 5, 6], [7]] : List (List Int))[r]? = some row →
        row[c]? = some v →
        ([1, 2] : List Int).length ≤ c → c < 2 * ([1, 2] : List Int).length →
        (∀ row1, ([1, 2] :: [[3, 4, 5, 6], [7]] : List (List Int))[r + 1]? = some row1 →
          row1[c - ([1, 2] : List Int).length]? = none) →
        m.operator_call h1 (r + 1) (c - ([1, 2] : List Int).length) = Outcome.ok h1 v) ∧
      (∀ o, o < m._rows * m._cols →
        (∀ r row, ([1, 2] :: [[3, 4, 5, 6], [7]] : List (List Int))[r]? = some row →
          ¬ (r * ([1, 2] : List Int).length ≤ o ∧
            o < r * ([1, 2] : List Int).length + row.length)) →
        h1.load m._data o = Outcome.ok h1 (heap0.junk heap0.cells.length o)) ∧
      ctor_list heap0 [[1, 2], [3, 4, 5, 6], [7]]
        = Outcome.ok (heap0.push [1, 2, 3, 4, 7, 6]) ⟨3, 2, some heap0.cells.length⟩ :=
  ctor_list_ragged heap0 [1, 2] [[3, 4, 5, 6], [7]] (by
    intro r row hr
    have hlt : r < 3 := by
      by_contra hge
      rw [List.getElem?_eq_none (by simpa using hge)] at hr
      cases hr
    interval_cases r <;> simp at hr <;> subst hr <;> decide)

/-- C18, counterexample: `A` of shape `2^32 x 0` and `B` of shape `0 x 2^32`
satisfy the invariant and pass the inner-dimension check of `operator*`, but
the product buffer is allocated with the wrapped element count
`2^32 * 2^32 mod 2^64 = 0`, so the first store, `product(0, 0)` at offset 0, is
not below the length 0 of the buffer it indexes: the out-of-bounds branch is
reached. -/
theorem product_store_out_of_bounds :
    valid heap_wrap mat_tall ∧ valid heap_wrap mat_wide ∧ mat_tall._cols = mat_wide._rows ∧
    (∃ h1 product,
      ctor_sized heap_wrap mat_tall._rows mat_wide._cols = Outcome.ok h1 product ∧
      storage h1 product = some [] ∧
      ¬ (0 * product._cols + 0 < ([] : List Int).length) ∧
      product.operator_call_assign h1 0 0 0 = Outcome.ub) ∧
    operator_mul heap_wrap mat_tall mat_wide = Outcome.ub :=
  ⟨by decide, by decide, by decide, ⟨_, _, rfl, by decide, by decide, rfl⟩,
    operator_mul_wrapped heap_wrap 4294967295 4294967295 _ _ (by decide)⟩

/-- C18, amended: for operands that satisfy the invariant, every offset
`operator+=` uses once its shape check has passed is below the length of the
buffer it indexes, and so is every offset `operator*` reads from its operands
once its inner-dimension check has passed; when moreover the element count
`A.rows * B.cols` of the product is below `2^64`, every offset `operator*`
writes is below the length of the product buffer. An index at or beyond the
length of a block is undefined behaviour in the embedding; `operator+=` never
ends in undefined behaviour, and neither does `operator*` under that bound. -/
theorem accesses_in_bounds (h : Heap) (A B : matrix) (hA : valid h A) (hB : valid h B) :
    (∃ a b, storage h A = some a ∧ storage h B = some b ∧
      (A._rows = B._rows → A._cols = B._cols →
        ∀ n, n < A._rows * A._cols → n < a.length ∧ n < b.length) ∧
      (A._cols = B._rows →
        ∀ i j k, i < A._rows → j < B._cols → k < A._cols →
          i * A._cols + k < a.length ∧ k * B._cols + j < b.length)) ∧
    (∀ p b n v, h.block p = some b → b.length ≤ n →
      h.load p n = Outcome.ub ∧ h.store p n v = Outcome.ub) ∧
    operator_add_assign h A B ≠ Outcome.ub ∧
    (A._rows = B._rows → A._cols = B._cols →
      ∃ h1, operator_add_assign h A B = Outcome.ok h1 A) ∧
    (A._rows * B._cols < size_modulus →
      operator_mul h A B ≠ Outcome.ub ∧
      (A._cols = B._rows →
        ∃ h1 P c, operator_mul h A B = Outcome.ok h1 P ∧ valid h1 P ∧
          P._rows = A._rows ∧ P._cols = B._cols ∧ storage h1 P = some c ∧
          ∀ i j, i < A._rows → j < B._cols → i * P._cols + j < c.length)) := by
  obtain ⟨a, hsA, hlA⟩ := (valid_iff h A).1 hA
  obtain ⟨b, hsB, hlB⟩ := (valid_iff h B).1 hB
  have hadd : A._rows = B._rows → A._cols = B._cols →
      ∃ h1, operator_add_assign h A B = Outcome.ok h1 A := by
    intro hr hc
    obtain ⟨h1, hrun, _⟩ := operator_add_assign_post hA hB hr hc
    exact ⟨h1, hrun⟩
  have hmul : A._rows * B._cols < size_modulus → A._cols = B._rows →
      ∃ h1 P c, operator_mul h A B = Outcome.ok h1 P ∧ valid h1 P ∧
        P._rows = A._rows ∧ P._cols = B._cols ∧ storage h1 P = some c ∧
        ∀ i j, i < A._rows → j < B._cols → i * P._cols + j < c.length := by
    intro hfit hK
    obtain ⟨P, hrun, hPl, _⟩ := operator_mul_eq hA hB hK hfit
    refine ⟨_, _, P, hrun, valid_new h P _ _ hPl, rfl, rfl, storage_new h P _ _, ?_⟩
    intro i j hi hj
    rw [hPl]
    exact index_lt hi hj
  refine ⟨⟨a, b, hsA, hsB, ?_, ?_⟩, ?_, ?_, hadd, ?_⟩
  · intro hr hc n hn
    exact ⟨by rw [hlA]; exact hn, by rw [hlB, ← hr, ← hc]; exact hn⟩
  · intro hK i j k hi hj hk
    exact ⟨by rw [hlA]; exact index_lt hi hk,
      by rw [hlB]; exact index_lt (by rw [← hK]; exact hk) hj⟩
  · intro p blk n v hblk hn
    constructor
    · unfold Heap.load
      rw [hblk]
      simp only
      rw [List.getElem?_eq_none hn]
    · cases p with
      | none => rfl
      | some q =>
        unfold Heap.store
        simp only [hblk]
        rw [if_neg (by omega)]
  · by_cases hm : A._rows ≠ B._rows ∨ A._cols ≠ B._cols
    · rw [(operator_add_assign_throw_iff h A B h).2 ⟨hm, rfl⟩]
      simp
    · have hr : A._rows = B._rows := by
        by_contra hne; exact hm (Or.inl hne)
      have hc : A._cols = B._cols := by
        by_contra hne; exact hm (Or.inr hne)
      obtain ⟨h1, hrun⟩ := hadd hr hc
      rw [hrun]
      simp
  · intro hfit
    refine ⟨?_, hmul hfit⟩
    by_cases hK : A._cols = B._rows
    · obtain ⟨h1, P, c, hrun, _⟩ := hmul hfit hK
      rw [hrun]
      simp
    · rw [(operator_mul_throw_iff h A B h).2 ⟨hK, rfl⟩]
      simp

/-- Witness for the amended C18 on `[[1,2],[3,4]]` and `[[5,6],[7,8]]`. -/
theorem accesses_in_bounds_witness :
    valid heap0 mat_a ∧ valid heap0 mat_b ∧
    operator_add_assign heap0 mat_a mat_b ≠ Outcome.ub ∧
    (mat_a._rows = mat_b._rows → mat_a._cols = mat_b._cols →
      ∃ h1, operator_add_assign heap0 mat_a mat_b = Outcome.ok h1 mat_a) ∧
    (mat_a._rows * mat_b._cols < size_modulus →
      operator_mul heap0 mat_a mat_b ≠ Outcome.ub ∧
      (mat_a._cols = mat_b._rows →
        ∃ h1 P c, operator_mul heap0 mat_a mat_b = Outcome.ok h1 P ∧ valid h1 P ∧
          P._rows = mat_a._rows ∧ P._cols = mat_b._cols ∧ storage h1 P = some c ∧
          ∀ i j, i < mat_a._rows → j < mat_b._cols → i * P._cols + j < c.length)) :=
  ⟨by decide, by decide,
    (accesses_in_bounds heap0 mat_a mat_b (by decide) (by decide)).2.2⟩

end matrix

end atter
